import Mathlib

/-!
Verification of the memU memory-engine core.

A shallow embedding, in Lean 4, of the parts of the memU repository that the
frozen claims are about:

* `memu/utils/references.py` — parsing and stripping of `[ref:ID]` citations;
* `memu/database/models.py` — `compute_content_hash` and the `MemoryItem` record;
* `memu/database/inmemory/repositories/memory_item_repo.py` — the in-memory
  item repository with its reinforce-create deduplication path;
* `memu/database/inmemory/vector.py` — cosine top-k and salience-weighted top-k;
* `memu/app/retrieve.py` — the recall-items and build-context steps of the
  retrieve pipeline, and the caller-error checks of `retrieve`;
* `memu/app/memorize.py` — the persist-items and reference-annotation steps of
  the memorize pipeline.

Python text is modelled as `List Char` (the code only manipulates ASCII), real
arithmetic (`float`) as `ℝ`, timestamps as numbers, machine dictionaries as
association lists in insertion order, and `uuid4`/LLM responses as explicit
inputs.  Definitions are translated from the Python sources; where a source
file is absent from the repository snapshot the definition is modelled from
the specification and says so in its doc comment.
-/

namespace MemU

/-! ## Python string primitives -/

/-- ASCII whitespace, as recognised by Python's `str.split()` and the regex
class `\s` (the code only produces ASCII whitespace). -/
def isPySpace (c : Char) : Bool :=
  c = ' ' || c = '\t' || c = '\n' || c = '\r' || c = '\x0b' || c = '\x0c'

/-- Accumulator loop of `str.split()`: `acc` is the current word, reversed. -/
def splitWordsAcc : List Char → List Char → List (List Char)
  | [], acc => if acc.isEmpty then [] else [acc.reverse]
  | c :: rest, acc =>
    if isPySpace c then
      if acc.isEmpty then splitWordsAcc rest [] else acc.reverse :: splitWordsAcc rest []
    else splitWordsAcc rest (c :: acc)

/-- Python `str.split()` with no separator: split on runs of whitespace, dropping
empty pieces (so leading/trailing whitespace produces no empty word). -/
def splitWords (l : List Char) : List (List Char) :=
  splitWordsAcc l []

/-- Python `" ".join(words)`. -/
def joinSpace : List (List Char) → List Char
  | [] => []
  | [w] => w
  | w :: rest => w ++ ' ' :: joinSpace rest

/-- Python `" ".join(s.split())` — collapse every whitespace run to a single space and
strip the ends.  Used both by `compute_content_hash` and by
`strip_references`. -/
def collapseWs (l : List Char) : List Char :=
  joinSpace (splitWords l)

/-- Python `str.strip()` (ASCII whitespace). -/
def pyStrip (l : List Char) : List Char :=
  ((l.dropWhile isPySpace).reverse.dropWhile isPySpace).reverse

/-- Python `str.lower()` (the data is ASCII, where Python's and Lean's lowercasing
agree). -/
def pyLower (l : List Char) : List Char :=
  l.map Char.toLower

/-- Fuelled loop of one non-overlapping left-to-right pass of
`str.replace(pat, "")`.  The fuel only serves structural recursion; with
`fuel ≥ l.length` (one unit per consumed character) it never runs out. -/
def removeSubF (pat : List Char) : Nat → List Char → List Char
  | _, [] => []
  | 0, l => l
  | fuel + 1, c :: rest =>
    if pat ≠ [] ∧ (c :: rest).take pat.length = pat then
      removeSubF pat fuel ((c :: rest).drop pat.length)
    else
      c :: removeSubF pat fuel rest

/-- One non-overlapping left-to-right pass of `str.replace(pat, "")`. -/
def removeSub (pat l : List Char) : List Char :=
  removeSubF pat l.length l

/-! ## Reference utilities (`memu/utils/references.py`)

The compiled pattern is `\[ref:([a-zA-Z0-9_,\-]+)\]`.  The character class is
disjoint from `]`, so the greedy `+` matches exactly the maximal run of class
characters, and a match at a position exists iff that run is non-empty and is
followed by `]`. -/

/-- The regex character class `[a-zA-Z0-9_,\-]`. -/
def isRefChar (c : Char) : Bool :=
  ('a' ≤ c && c ≤ 'z') || ('A' ≤ c && c ≤ 'Z') || ('0' ≤ c && c ≤ '9') ||
    c = '_' || c = ',' || c = '-'

/-- Try to match `\[ref:([a-zA-Z0-9_,\-]+)\]` at the head of `l`.  On success,
return the captured group and the remainder of the text after the match. -/
def matchRef (l : List Char) : Option (List Char × List Char) :=
  if l.take 5 = ['[', 'r', 'e', 'f', ':'] then
    if (l.drop 5).takeWhile isRefChar ≠ [] ∧
        ((l.drop 5).dropWhile isRefChar).head? = some ']' then
      some ((l.drop 5).takeWhile isRefChar, ((l.drop 5).dropWhile isRefChar).tail)
    else none
  else none

/-- Fuelled loop of the left-to-right regex scan.  The fuel only serves
structural recursion; one unit is spent per consumed character, so with
`fuel ≥ l.length` it never runs out (a match consumes at least seven). -/
def refScanF : Nat → List Char → List (List Char) × List Char
  | _, [] => ([], [])
  | 0, l => ([], l)
  | fuel + 1, c :: rest =>
    match matchRef (c :: rest) with
    | some (ids, after) =>
      let r := refScanF fuel after
      (ids :: r.1, r.2)
    | none =>
      let r := refScanF fuel rest
      (r.1, c :: r.2)

/-- The scan behind `REFERENCE_PATTERN.finditer` and `.sub("", ·)`, left to right:
the first component collects the captured groups of every match, the second is
the text with every match deleted. -/
def refScan (l : List Char) : List (List Char) × List Char :=
  refScanF l.length l

/-- Append `x` to `acc` unless it is empty or already present — the
`if item_id and item_id not in seen` accumulation of `extract_references`. -/
def addUniqueId (acc : List (List Char)) (x : List Char) : List (List Char) :=
  if x = [] ∨ x ∈ acc then acc else acc ++ [x]

/-- Function `extract_references`: every match's group is split on `,`; pieces are
stripped (a no-op here: the class has no whitespace), empty pieces dropped,
and the result de-duplicated keeping first occurrences. -/
def extract_references (text : List Char) : List (List Char) :=
  ((refScan text).1).foldl
    (fun acc g => (g.splitOn ',').foldl addUniqueId acc) []

/-- The punctuation class of the clean-up pass `re.sub(r"\s+([.,;:!?])", r"\1", ·)`
in `strip_references`. -/
def isCleanupPunct (c : Char) : Bool :=
  c = '.' || c = ',' || c = ';' || c = ':' || c = '!' || c = '?'

/-- Accumulator loop of the clean-up pass: `pend` holds the current pending
whitespace run, reversed.  When the run turns out to be followed by one of
`.,;:!?` it is dropped; otherwise it is emitted verbatim. -/
def cleanupAcc : List Char → List Char → List Char
  | [], pend => pend.reverse
  | c :: rest, pend =>
    if isPySpace c then cleanupAcc rest (c :: pend)
    else if isCleanupPunct c ∧ pend ≠ [] then c :: cleanupAcc rest []
    else pend.reverse ++ c :: cleanupAcc rest []

/-- The clean-up pass `re.sub(r"\s+([.,;:!?])", r"\1", ·)`: a maximal
whitespace run immediately followed by one of `.,;:!?` is replaced by the
punctuation character alone. -/
def cleanupPunct (l : List Char) : List Char :=
  cleanupAcc l []

/-- Function `strip_references`: delete every `[ref:...]` match, then clean up
whitespace before punctuation, then collapse whitespace runs. -/
def strip_references (text : List Char) : List Char :=
  collapseWs (cleanupPunct (refScan text).2)

/-! ## Data model (`memu/database/models.py`) -/

/-- The closed memory-type set `Literal["profile", "event", "knowledge",
"behavior", "skill"]`. -/
inductive MemoryType where
  | profile
  | event
  | knowledge
  | behavior
  | skill
deriving DecidableEq, Repr, Fintype

/-- The string value of a `MemoryType` literal. -/
def MemoryType.str : MemoryType → String
  | .profile => "profile"
  | .event => "event"
  | .knowledge => "knowledge"
  | .behavior => "behavior"
  | .skill => "skill"

/-- The normalisation step of `compute_content_hash`:
`" ".join(summary.lower().split())`. -/
def normalizeSummary (s : String) : String :=
  ⟨collapseWs (pyLower s.data)⟩

/-- Function `compute_content_hash` builds `f"{memory_type}:{normalized}"` and
returns the first 16 hex characters of its SHA-256 digest.  The digest step is
modelled as the identity on the hashed string: it is a fixed function of the
canonical string, and the model treats it as injective (truncated-digest
collisions are outside the model). -/
def compute_content_hash (summary : String) (memory_type : MemoryType) : String :=
  memory_type.str ++ ":" ++ normalizeSummary summary

/-- A user scope: the key/value fields (e.g. `user_id`) attached to every
record, in insertion order. -/
abbrev Scope := List (String × String)

/-- The `MemoryItem` record.  The open `extra` mapping is modelled by the four
keys the code reads and writes (`content_hash`, `reinforcement_count`,
`last_reinforced_at`, `ref_id`); an absent key is `none`.  Timestamps are
modelled as natural numbers. -/
structure MItem where
  id : String
  resource_id : String
  memory_type : MemoryType
  summary : String
  embedding : Option (List ℝ)
  scope : Scope
  content_hash : Option String
  reinforcement_count : Option Nat
  last_reinforced_at : Option Nat
  ref_id : Option String

/-- Modelled from the spec: `matches_where` lives in
`memu/database/inmemory/repositories/filter.py`, which is absent from the
repository snapshot.  The spec says a scope is "a set of key/value fields …
that partitions the dataset" and that reads use "an equality-based scope
filter"; with every write carrying the full scope of its creator, a filter
matches an item exactly when it equals the item's scope. -/
def matches_where (it : MItem) (w : Scope) : Bool :=
  it.scope == w

/-! ## In-memory item repository
(`memu/database/inmemory/repositories/memory_item_repo.py`)

The repository state is the `items` dictionary, modelled as a list in
insertion order.  `uuid4` ids and `pendulum.now` timestamps are inputs. -/

/-- `list_items`: all items, or the ones matching the scope filter. -/
def list_items (items : List MItem) (w : Scope) : List MItem :=
  if w.isEmpty then items else items.filter (fun it => matches_where it w)

/-- `list_items_by_ref_ids`: items whose truthy `extra.ref_id` is in the
requested set, subject to the scope filter. -/
def list_items_by_ref_ids (items : List MItem) (ref_ids : List String) (w : Scope) :
    List MItem :=
  if ref_ids.isEmpty then []
  else
    items.filter (fun it =>
      (w.isEmpty || matches_where it w) &&
        match it.ref_id with
        | some r => !r.isEmpty && r ∈ ref_ids
        | none => false)

/-- The predicate of `_find_by_hash`: same `extra.content_hash` and a scope
match. -/
def hashScopeHit (h : String) (w : Scope) (it : MItem) : Bool :=
  it.content_hash == some h && matches_where it w

/-- The reinforcement update applied to an existing item: bump
`reinforcement_count` (read with default 1) and refresh `last_reinforced_at`. -/
def bumpItem (it : MItem) (now : Nat) : MItem :=
  { it with
    reinforcement_count := some (it.reinforcement_count.getD 1 + 1)
    last_reinforced_at := some now }

/-- The body of `create_item_reinforce` after the hash is computed:
`_find_by_hash` walks the dictionary in insertion order; the first hit is
reinforced in place, otherwise the new item is appended.  Returns the new
item list, the returned item, and whether an existing item was reinforced. -/
def bumpOrInsert (h : String) (w : Scope) (newItem : MItem) (now : Nat) :
    List MItem → List MItem × MItem × Bool
  | [] => ([newItem], newItem, false)
  | it :: rest =>
    if hashScopeHit h w it then
      (bumpItem it now :: rest, bumpItem it now, true)
    else
      let r := bumpOrInsert h w newItem now rest
      (it :: r.1, r.2.1, r.2.2)

/-- The new row inserted by `create_item_reinforce` when no hash match exists:
`reinforcement_count = 1`, `last_reinforced_at = now`. -/
def newReinforcedItem (newId resource_id : String) (memory_type : MemoryType)
    (summary : String) (embedding : List ℝ) (user_data : Scope) (now : Nat) : MItem :=
  { id := newId
    resource_id := resource_id
    memory_type := memory_type
    summary := summary
    embedding := some embedding
    scope := user_data
    content_hash := some (compute_content_hash summary memory_type)
    reinforcement_count := some 1
    last_reinforced_at := some now
    ref_id := none }

/-- `create_item_reinforce`: compute the content hash; reinforce the first
item with the same hash in the same scope, or insert a fresh row. -/
def create_item_reinforce (items : List MItem) (newId resource_id : String)
    (memory_type : MemoryType) (summary : String) (embedding : List ℝ)
    (user_data : Scope) (now : Nat) : List MItem × MItem × Bool :=
  bumpOrInsert (compute_content_hash summary memory_type) user_data
    (newReinforcedItem newId resource_id memory_type summary embedding user_data now)
    now items

/-- `create_item`: with `reinforce` dispatch to `create_item_reinforce`,
otherwise insert unconditionally with an empty `extra`. -/
def create_item (items : List MItem) (reinforce : Bool) (newId resource_id : String)
    (memory_type : MemoryType) (summary : String) (embedding : List ℝ)
    (user_data : Scope) (now : Nat) : List MItem × MItem × Bool :=
  if reinforce then
    create_item_reinforce items newId resource_id memory_type summary embedding
      user_data now
  else
    let it : MItem :=
      { id := newId
        resource_id := resource_id
        memory_type := memory_type
        summary := summary
        embedding := some embedding
        scope := user_data
        content_hash := none
        reinforcement_count := none
        last_reinforced_at := none
        ref_id := none }
    (items ++ [it], it, false)

/-- `update_item` called with `extra = {"ref_id": short_id}`: merge the key
into the item's `extra`.  (The source raises `KeyError` for an unknown id; the
memorize pipeline only passes ids of items it has just stored, and the model
leaves the list unchanged in that unreachable case.) -/
def update_item_ref (items : List MItem) (item_id : String) (s : String) :
    List MItem :=
  items.map (fun it => if it.id = item_id then { it with ref_id := some s } else it)

/-! ## Traces of reinforce-create calls

Claim support: a sequence of `create_item_reinforce` calls, each carrying its
fresh uuid and its `pendulum.now` timestamp as explicit inputs. -/

/-- One reinforce-create call with its non-deterministic inputs made
explicit. -/
structure RCall where
  newId : String
  resource_id : String
  memory_type : MemoryType
  summary : String
  embedding : List ℝ
  scope : Scope
  now : Nat

/-- The item-store effect of one reinforce-create call. -/
def reinforceStep (items : List MItem) (c : RCall) : List MItem :=
  (create_item_reinforce items c.newId c.resource_id c.memory_type c.summary
    c.embedding c.scope c.now).1

/-- The item store after a sequence of reinforce-create calls. -/
def applyReinforceCalls (items : List MItem) : List RCall → List MItem
  | [] => items
  | c :: cs => applyReinforceCalls (reinforceStep items c) cs

/-- The rows for one content, in one scope: items whose `extra.content_hash`
is `h` and whose scope matches. -/
def keyItems (h : String) (sc : Scope) (items : List MItem) : List MItem :=
  items.filter (hashScopeHit h sc)

/-- A call is "for the content `(mt, su)` in scope `sc`" when its memory type,
its whitespace-collapsed lowercase summary and its scope are the given ones. -/
def isKeyCall (mt : MemoryType) (su : String) (sc : Scope) (c : RCall) : Bool :=
  c.memory_type == mt && normalizeSummary c.summary == normalizeSummary su &&
    c.scope == sc

/-- Fold the timestamps of a call list over a previous timestamp: the result
is the `now` of the last call, or the previous value when the list is empty. -/
def lastNowAfter (tl : Option Nat) (kcs : List RCall) : Option Nat :=
  kcs.foldl (fun _ c => some c.now) tl

/-- The single-row invariant for one content key: no row before the first
call for it; afterwards exactly one row, whose counter is the number of calls
made so far and whose timestamp is the last such call's. -/
def ReinforceInv (h : String) (sc : Scope) (m : Nat) (tl : Option Nat)
    (items : List MItem) : Prop :=
  match m with
  | 0 => keyItems h sc items = []
  | m' + 1 =>
    ∃ it, keyItems h sc items = [it] ∧ it.reinforcement_count = some (m' + 1) ∧
      it.last_reinforced_at = tl

/-! ## Vector index (`memu/database/inmemory/vector.py`)

Float arithmetic is modelled over `ℝ`; `np.linalg.norm` is the Euclidean
norm; `datetime` values are epoch seconds.  Python's `list.sort` is a stable
mergesort; `np.argsort` (whose default quicksort leaves the tie order
unspecified) is modelled as a stable ascending sort, which reproduces numpy's
observed behaviour on small inputs.  Both numpy branches of `cosine_topk`
(full argsort for `k ≥ n`, argpartition plus argsort of the selected block
otherwise) return the `k` highest scores in descending order; the model
computes them as the reversed stable ascending sort truncated to `k`. -/

/-- The dot product `np.dot` / `matrix @ q`. -/
noncomputable def dotList (a b : List ℝ) : ℝ :=
  (List.zipWith (fun x y => x * y) a b).sum

/-- The Euclidean norm `np.linalg.norm`. -/
noncomputable def normList (a : List ℝ) : ℝ :=
  Real.sqrt ((a.map (fun x => x ^ 2)).sum)

/-- Function `_cosine` (and the vectorised score row of `cosine_topk`):
dot product over the product of norms plus the `1e-9` guard term. -/
noncomputable def cosine (a b : List ℝ) : ℝ :=
  dotList a b / (normList a * normList b + 1e-9)

/-- Function `salience_score`: similarity times a logarithmic reinforcement
factor times an exponential recency factor.  The code's decay constant is the
literal `0.693` (commented `0.693 = ln(2)`); an unknown `last_reinforced_at`
gives the fixed factor `0.5`.  `now` is the wall-clock time (epoch seconds)
the code samples; `days_ago = (now - last).total_seconds() / 86400`. -/
noncomputable def salience_score (similarity : ℝ) (reinforcement_count : Nat)
    (last_reinforced_at : Option ℝ) (now : ℝ) (recency_decay_days : ℝ) : ℝ :=
  let reinforcement_factor := Real.log (reinforcement_count + 1)
  let recency_factor :=
    match last_reinforced_at with
    | none => (0.5 : ℝ)
    | some t => Real.exp (-(0.693) * ((now - t) / 86400) / recency_decay_days)
  similarity * reinforcement_factor * recency_factor

/-- Python's `list.sort(key=…, reverse=True)`: a stable descending sort. -/
noncomputable def pySortDescBy {α : Type} (key : α → ℝ) (l : List α) : List α :=
  l.mergeSort (fun a b => decide (key b ≤ key a))

/-- `np.argsort`, modelled as a stable ascending sort applied directly to the
scored entries rather than to index arrays (see the section comment). -/
noncomputable def argsortAscBy {α : Type} (key : α → ℝ) (l : List α) : List α :=
  l.mergeSort (fun a b => decide (key a ≤ key b))

/-- The filtering loop of `cosine_topk`: keep the entries whose vector is not
`None`. -/
def validEntries (corpus : List (String × Option (List ℝ))) :
    List (String × List ℝ) :=
  corpus.filterMap (fun p => p.2.map (fun v => (p.1, v)))

/-- The score vector of `cosine_topk`:
`scores = matrix @ q / (vec_norms * q_norm + 1e-9)`, one score per valid
entry, in corpus order. -/
noncomputable def cosineScored (query_vec : List ℝ)
    (corpus : List (String × Option (List ℝ))) : List (String × ℝ) :=
  (validEntries corpus).map (fun p => (p.1, cosine p.2 query_vec))

/-- Function `cosine_topk`: skip `None` vectors, return `[]` if nothing is
left, otherwise the `k` highest-scoring `(id, score)` pairs in descending
score order. -/
noncomputable def cosine_topk (query_vec : List ℝ)
    (corpus : List (String × Option (List ℝ))) (k : Nat) : List (String × ℝ) :=
  if (validEntries corpus).isEmpty then []
  else ((argsortAscBy Prod.snd (cosineScored query_vec corpus)).reverse).take k

/-- One corpus entry of `cosine_topk_salience`:
`(id, embedding, reinforcement_count, last_reinforced_at)`. -/
structure SalienceEntry where
  id : String
  embedding : Option (List ℝ)
  reinforcement_count : Nat
  last_reinforced_at : Option ℝ

/-- The scoring loop of `cosine_topk_salience` (entries with a `None` vector
are skipped with `continue`). -/
noncomputable def salienceScored (query_vec : List ℝ) (corpus : List SalienceEntry)
    (now recency_decay_days : ℝ) : List (String × ℝ) :=
  corpus.filterMap (fun e =>
    e.embedding.map (fun v =>
      (e.id, salience_score (cosine query_vec v) e.reinforcement_count
        e.last_reinforced_at now recency_decay_days)))

/-- Function `cosine_topk_salience`: score with `salience_score`, stable-sort
descending (`scored.sort(key=…, reverse=True)`), take `k`. -/
noncomputable def cosine_topk_salience (query_vec : List ℝ)
    (corpus : List SalienceEntry) (k : Nat) (now recency_decay_days : ℝ) :
    List (String × ℝ) :=
  (pySortDescBy Prod.snd (salienceScored query_vec corpus now recency_decay_days)).take k

/-! ## Further records of the data model -/

/-- The `MemoryCategory` record (plus its scope fields). -/
structure MCategory where
  id : String
  name : String
  description : String
  summary : Option String
  embedding : Option (List ℝ)
  scope : Scope

/-- The `Resource` record (plus its scope fields). -/
structure MResource where
  id : String
  url : String
  modality : String
  caption : Option String
  embedding : Option (List ℝ)
  scope : Scope

/-- The `CategoryItem` relation record. -/
structure CatRel where
  item_id : String
  category_id : String
  scope : Scope

/-- Modelled from the spec: `list_categories` of the category repository,
whose source file is not in the snapshot.  The spec's repository contract is
that `list(scope_filter)` "returns all entities matching an equality-based
scope filter"; scope matching is as in `matches_where`. -/
def list_categories (cats : List MCategory) (w : Scope) : List MCategory :=
  if w.isEmpty then cats else cats.filter (fun c => c.scope == w)

/-- Modelled from the spec: `link_item_category` of the relation repository,
whose source file is not in the snapshot.  The spec: a relation links a
category and a memory item and "carries the user scope of the item that
produced it". -/
def link_item_category (item_id category_id : String) (user : Scope) : CatRel :=
  { item_id := item_id, category_id := category_id, scope := user }

/-! ## Retrieve pipeline (`memu/app/retrieve.py`) -/

/-- The item-ranking strategy tag. -/
inductive Ranking where
  | similarity
  | salience
deriving DecidableEq, Repr

/-- The `RetrieveItemConfig` fields the recall-items steps read. -/
structure RetrieveItemConfig where
  top_k : Nat
  use_category_references : Bool
  ranking : Ranking
  recency_decay_days : ℝ

/-- `vector_search_items` of the in-memory item repository: pool the
scope-filtered items, then rank by plain cosine or by salience; the salience
corpus reads `reinforcement_count` from `extra` with default 1, and parses
`last_reinforced_at` (`None` when absent). -/
noncomputable def vector_search_items (items : List MItem) (query_vec : List ℝ)
    (top_k : Nat) (w : Scope) (ranking : Ranking) (recency_decay_days : ℝ)
    (now : ℝ) : List (String × ℝ) :=
  let pool := list_items items w
  match ranking with
  | .salience =>
    cosine_topk_salience query_vec
      (pool.map (fun i =>
        { id := i.id
          embedding := i.embedding
          reinforcement_count := i.reinforcement_count.getD 1
          last_reinforced_at := i.last_reinforced_at.map (fun n => (n : ℝ)) }))
      top_k now recency_decay_days
  | .similarity =>
    cosine_topk query_vec (pool.map (fun i => (i.id, i.embedding))) top_k

/-- The state fields read by `_rag_recall_items`. -/
structure RagRecallState where
  retrieve_item : Bool
  needs_retrieval : Bool
  proceed_to_items : Bool
  whereF : Scope
  query_vector : List ℝ
  category_hits : List (String × ℝ)
  category_summary_lookup : List (String × String)
  category_pool : List MCategory

/-- Step `_rag_recall_items`: early-out with empty hits unless item retrieval
is enabled, retrieval is needed, and the sufficiency check said to proceed;
otherwise list the scope-filtered item pool and rank it with
`vector_search_items`.  Returns `(item_hits, item_pool)`; the pool is `none`
on the early exit (the code then leaves `item_pool` unset). -/
noncomputable def rag_recall_items (cfg : RetrieveItemConfig) (items : List MItem)
    (s : RagRecallState) (now : ℝ) :
    List (String × ℝ) × Option (List MItem) :=
  if !s.retrieve_item || !s.needs_retrieval || !s.proceed_to_items then ([], none)
  else
    (vector_search_items items s.query_vector cfg.top_k s.whereF
        cfg.ranking cfg.recency_decay_days now,
      some (list_items items s.whereF))

/-- The `ref_ids` accumulation of `_llm_recall_items`: when
`use_category_references` is configured and category hits exist, extract the
`[ref:…]` ids from every hit's summary, in order, with repetitions. -/
def llm_category_ref_ids (use_refs : Bool) (category_hits : List MCategory) :
    List String :=
  if use_refs && !category_hits.isEmpty then
    category_hits.foldl
      (fun acc c =>
        acc ++ (extract_references (c.summary.getD "").data).map
          (fun l => (⟨l⟩ : String)))
      []
  else []

/-- Step `_llm_recall_items`, up to the LLM-ranker call: the candidate item
pool handed to `_llm_rank_items`.  When reference extraction produced ids,
the pool is `list_items_by_ref_ids`; otherwise the full scope-filtered
pool.  (The hits themselves are whatever the LLM ranker answers and the
claims do not constrain them.) -/
def llm_recall_items_pool (use_refs : Bool) (items : List MItem)
    (category_hits : List MCategory) (w : Scope) : List MItem :=
  let ref_ids := llm_category_ref_ids use_refs category_hits
  if !ref_ids.isEmpty then list_items_by_ref_ids items ref_ids w
  else list_items items w

/-- The response dictionary produced by the build-context steps. -/
structure RetrieveResponse (γ ι ρ : Type) where
  needs_retrieval : Bool
  original_query : String
  rewritten_query : String
  next_step_query : Option String
  categories : List γ
  items : List ι
  resources : List ρ

/-- `_materialize_hits`: look each hit id up in the pool (a dict keyed by
id), drop the misses, and pair the record with its score.  The embedding
stripping of the dump is not modelled — no claim observes it. -/
def materialize_hits {α : Type} (idOf : α → String) (hits : List (String × ℝ))
    (pool : List α) : List (α × ℝ) :=
  hits.foldl (fun out p =>
    match pool.find? (fun o => idOf o == p.1) with
    | some o => out ++ [(o, p.2)]
    | none => out) []

/-- The state fields read by `_rag_build_context`. -/
structure RagBuildState where
  needs_retrieval : Bool
  original_query : String
  rewritten_query : Option String
  next_step_query : Option String
  category_hits : List (String × ℝ)
  item_hits : List (String × ℝ)
  resource_hits : List (String × ℝ)
  category_pool : List MCategory
  item_pool : List MItem
  resource_pool : List MResource

/-- Step `_rag_build_context`: the response starts with empty hit lists and
is filled from the materialised hits only when `needs_retrieval` is set. -/
def rag_build_context (s : RagBuildState) :
    RetrieveResponse (MCategory × ℝ) (MItem × ℝ) (MResource × ℝ) :=
  { needs_retrieval := s.needs_retrieval
    original_query := s.original_query
    rewritten_query := s.rewritten_query.getD s.original_query
    next_step_query := s.next_step_query
    categories :=
      if s.needs_retrieval then
        materialize_hits MCategory.id s.category_hits s.category_pool
      else []
    items :=
      if s.needs_retrieval then materialize_hits MItem.id s.item_hits s.item_pool
      else []
    resources :=
      if s.needs_retrieval then
        materialize_hits MResource.id s.resource_hits s.resource_pool
      else [] }

/-- Step `_llm_build_context`: as `_rag_build_context`, but the hits are the
LLM-ranked record dumps and carry no score. -/
def llm_build_context (needs_retrieval : Bool) (original_query : String)
    (rewritten_query : Option String) (next_step_query : Option String)
    (category_hits : List MCategory) (item_hits : List MItem)
    (resource_hits : List MResource) :
    RetrieveResponse MCategory MItem MResource :=
  { needs_retrieval := needs_retrieval
    original_query := original_query
    rewritten_query := rewritten_query.getD original_query
    next_step_query := next_step_query
    categories := if needs_retrieval then category_hits else []
    items := if needs_retrieval then item_hits else []
    resources := if needs_retrieval then resource_hits else [] }

/-- The content of a retrieve query message: a plain string, an object whose
`text` key is read with default `""`, or anything else. -/
inductive QueryContent where
  | str (s : String)
  | obj (text : String)
  | other

/-- A retrieve query: a message dict, a bare string (backward compatibility),
or a non-dict value. -/
inductive QueryMsg where
  | plain (s : String)
  | msg (role : String) (content : QueryContent)
  | invalid

/-- `_extract_query_text`: strings pass through; a dict content reads
`content.get("text", "")` and rejects an empty result; a string content
passes through; anything else is a `TypeError`. -/
def extract_query_text : QueryMsg → Except String String
  | .plain s => .ok s
  | .msg _ (.obj t) => if t.isEmpty then .error "EMPTY" else .ok t
  | .msg _ (.str s) => .ok s
  | .msg _ .other => .error "INVALID"
  | .invalid => .error "INVALID"

/-- The key prefix before the first `"__"` — `raw_key.split("__", 1)[0]`. -/
def splitKeyBase : List Char → List Char
  | [] => []
  | '_' :: '_' :: _ => []
  | c :: rest => c :: splitKeyBase rest

/-- The entry loop of `_normalize_where`: `None` values are skipped; for each
remaining key, the base field must belong to the configured user model,
otherwise `ValueError("Unknown filter field …")`. -/
def normalize_where_entries (valid_fields : List String) :
    List (String × Option String) → Except String (List (String × String))
  | [] => .ok []
  | (_, none) :: rest => normalize_where_entries valid_fields rest
  | (k, some v) :: rest =>
    if (⟨splitKeyBase k.data⟩ : String) ∈ valid_fields then
      (normalize_where_entries valid_fields rest).map (fun r => (k, v) :: r)
    else .error ("Unknown filter field " ++ k)

/-- `_normalize_where`: an empty (or absent) filter yields `{}`; otherwise
validate every entry. -/
def normalize_where (valid_fields : List String)
    (w : List (String × Option String)) : Except String (List (String × String)) :=
  if w.isEmpty then .ok [] else normalize_where_entries valid_fields w

/-- Function `retrieve`, up to the workflow dispatch: reject an empty query
list, extract the text of the last message, validate the scope filter, and
only then run the (RAG or LLM) workflow — injected here as `run_workflow`
over the extracted query and the validated filters. -/
def retrieve {R : Type} (run_workflow : String → List (String × String) → R)
    (valid_fields : List String) (queries : List QueryMsg)
    (whereArg : List (String × Option String)) : Except String R :=
  if queries.isEmpty then .error "empty_queries"
  else
    match queries.getLast? with
    | none => .error "empty_queries"
    | some q =>
      match extract_query_text q with
      | .error e => .error e
      | .ok original_query =>
        match normalize_where valid_fields whereArg with
        | .error e => .error e
        | .ok wf => .ok (run_workflow original_query wf)

/-! ## Memorize pipeline (`memu/app/memorize.py`) -/

/-- `_map_category_names_to_ids`: trim-lowercase each declared name, look it
up in `ctx.category_name_to_id`, keep truthy ids, first occurrence only. -/
def map_category_names_to_ids (name_to_id : List (String × String))
    (names : List String) : List String :=
  names.foldl (fun acc name =>
    match name_to_id.lookup (⟨pyLower (pyStrip name.data)⟩ : String) with
    | some cid => if !cid.isEmpty && cid ∉ acc then acc ++ [cid] else acc
    | none => acc) []

/-- One structured entry reaching `_persist_memory_items`, with its embedding
from the batched embed call and the uuid a fresh insert would take. -/
structure EntryIn where
  newId : String
  memory_type : MemoryType
  summary : String
  cat_names : List String
  embedding : List ℝ

/-- The grouped `category_id -> [(item_id, summary)]` update map, as an
association list in key-insertion order (a Python dict of lists). -/
abbrev CategoryUpdates := List (String × List (String × String))

/-- `category_memory_updates.setdefault(cid, []).append((item_id, summary))`. -/
def addCategoryUpdate (m : CategoryUpdates) (cid : String)
    (v : String × String) : CategoryUpdates :=
  if (m.lookup cid).isSome then
    m.map (fun p => if p.1 == cid then (p.1, p.2 ++ [v]) else p)
  else m ++ [(cid, [v])]

/-- The accumulated outputs of `_persist_memory_items`: the returned items,
the created relations, the category update map, and the item store. -/
structure PersistAcc where
  items : List MItem
  rels : List CatRel
  category_updates : CategoryUpdates
  store : List MItem

/-- The loop body of `_persist_memory_items` for one entry: create (or
reinforce) the item; when reinforcement reports an existing item
(`reinforce` set and `extra.get("reinforcement_count", 1) > 1`), skip
category linking entirely; otherwise link every mapped category and record
the update. -/
def persist_entry (reinforce : Bool) (name_to_id : List (String × String))
    (resource_id : String) (user : Scope) (now : Nat) (acc : PersistAcc)
    (e : EntryIn) : PersistAcc :=
  let r := create_item acc.store reinforce e.newId resource_id e.memory_type
    e.summary e.embedding user now
  let item := r.2.1
  if reinforce && decide (1 < item.reinforcement_count.getD 1) then
    { acc with items := acc.items ++ [item], store := r.1 }
  else
    let cids := map_category_names_to_ids name_to_id e.cat_names
    { items := acc.items ++ [item]
      rels := acc.rels ++ cids.map (fun cid => link_item_category item.id cid user)
      category_updates := cids.foldl
        (fun m cid => addCategoryUpdate m cid (item.id, e.summary))
        acc.category_updates
      store := r.1 }

/-- Step `_persist_memory_items` over all entries of a run (the per-call
`pendulum.now` timestamps are collapsed into one run timestamp — no claim
observes their differences). -/
def persist_memory_items (reinforce : Bool) (name_to_id : List (String × String))
    (resource_id : String) (user : Scope) (now : Nat) (entries : List EntryIn)
    (store0 : List MItem) : PersistAcc :=
  entries.foldl (persist_entry reinforce name_to_id resource_id user now)
    { items := [], rels := [], category_updates := [], store := store0 }

/-- `_build_item_ref_id`: `item_id.replace("-", "")[:6]`. -/
def build_item_ref_id (item_id : String) : String :=
  ⟨(item_id.data.filter (fun c => c ≠ '-')).take 6⟩

/-- The code-fence clean-up applied to each LLM summary response:
`summary.replace("```markdown", "").replace("```", "").strip()`. -/
def clean_summary (raw : String) : String :=
  ⟨pyStrip (removeSub "```".data (removeSub "```markdown".data raw.data))⟩

/-- Step `_update_category_summaries`, with the LLM's responses as an oracle
mapping a category id to the raw response of its summary prompt: categories
with an empty update list or no record are skipped; for the rest the cleaned
response is written back.  Returns the `category_id -> new summary` map and
the updated category store. -/
def update_category_summaries (updates : CategoryUpdates)
    (cats : List MCategory) (responses : String → String) :
    List (String × String) × List MCategory :=
  let targets := updates.filter
    (fun u => !u.2.isEmpty && (cats.find? (fun c => c.id == u.1)).isSome)
  let written := targets.map (fun u => (u.1, clean_summary (responses u.1)))
  (written,
    cats.map (fun c =>
      match written.lookup c.id with
      | some s => { c with summary := some s }
      | none => c))

/-- `_extract_refs_from_summaries`: the union of the extracted reference ids
over all updated summaries.  (A Python set; modelled as a first-occurrence
list — every use below is order-insensitive.) -/
def extract_refs_from_summaries (summaries : List String) : List String :=
  summaries.foldl (fun acc s =>
    (extract_references s.data).foldl (fun acc' l =>
      let r : String := ⟨l⟩
      if r ∈ acc' then acc' else acc' ++ [r]) acc) []

/-- `short_id_to_item_id[short_id] = item_id` for one item id: overwrite the
existing entry for the key, else append (a Python dict assignment). -/
def sid_put (m : List (String × String)) (iid : String) : List (String × String) :=
  let sid := build_item_ref_id iid
  if (m.lookup sid).isSome then
    m.map (fun q => if q.1 == sid then (sid, iid) else q)
  else m ++ [(sid, iid)]

/-- The `short_id -> item_id` table of `_persist_item_references`, built from
every `(item_id, summary)` tuple of `category_updates` (later entries
overwrite earlier ones, as in a Python dict). -/
def short_id_table (category_updates : CategoryUpdates) :
    List (String × String) :=
  category_updates.foldl (fun m u => u.2.foldl (fun m' p => sid_put m' p.1) m) []

/-- Step `_persist_item_references`: extract every referenced short id from
the updated summaries; each one that is the short id of an item persisted
this run has `{"ref_id": short_id}` merged into that item's `extra`;
unmatched short ids are skipped. -/
def persist_item_references (updated_summaries : List (String × String))
    (category_updates : CategoryUpdates) (store : List MItem) : List MItem :=
  let referenced := extract_refs_from_summaries
    (updated_summaries.map (fun u => u.2))
  if referenced.isEmpty then store
  else
    let table := short_id_table category_updates
    referenced.foldl (fun st s =>
      match table.lookup s with
      | some iid => update_item_ref st iid s
      | none => st) store

/-- Steps (6)-(7) of one memorize run with references enabled: regenerate the
affected category summaries from the LLM responses, then annotate the
referenced items.  Returns the final category store and the final item
store. -/
def summarize_then_annotate (updates : CategoryUpdates)
    (cats : List MCategory) (responses : String → String) (store : List MItem) :
    List MCategory × List MItem :=
  let r := update_category_summaries updates cats responses
  (r.2, persist_item_references r.1 updates store)

/-- The concrete build-context state of the C5 witness: hit lists are
non-empty but `needs_retrieval` is false. -/
def c5state : RagBuildState :=
  { needs_retrieval := false
    original_query := "q"
    rewritten_query := none
    next_step_query := none
    category_hits := [("c1", 1)]
    item_hits := [("i1", 1)]
    resource_hits := [("r1", 1)]
    category_pool := []
    item_pool := []
    resource_pool := [] }

/-- The first identical-content reinforce-create call of the C1 witness. -/
def c1callA : RCall :=
  { newId := "id-1"
    resource_id := "r1"
    memory_type := .profile
    summary := "User  loves Coffee"
    embedding := []
    scope := [("user_id", "u1")]
    now := 10 }

/-- The second identical-content reinforce-create call of the C1 witness:
same memory type, same whitespace-collapsed lowercase summary, same scope. -/
def c1callB : RCall :=
  { newId := "id-2"
    resource_id := "r1"
    memory_type := .profile
    summary := "user loves   coffee"
    embedding := []
    scope := [("user_id", "u1")]
    now := 20 }

/-- The all-`None` salience entry of the C10 witness. -/
def c10entry : SalienceEntry :=
  { id := "s1"
    embedding := none
    reinforcement_count := 1
    last_reinforced_at := none }

/-- The two-entry equal-vector cosine corpus of the C8 witness. -/
def c8corpus : List (String × Option (List ℝ)) := [("a", some [1]), ("b", some [1])]

/-- The shared cosine score of the C8 witness corpus. -/
noncomputable def c8score : ℝ := cosine [1] [1]

/-- First salience entry of the C8 witness (same vector as the second). -/
def c8sal1 : SalienceEntry :=
  { id := "x"
    embedding := some [1]
    reinforcement_count := 1
    last_reinforced_at := none }

/-- Second salience entry of the C8 witness. -/
def c8sal2 : SalienceEntry :=
  { id := "y"
    embedding := some [1]
    reinforcement_count := 1
    last_reinforced_at := none }

/-- The shared salience score of the C8 witness corpus. -/
noncomputable def c8salScore : ℝ :=
  salience_score (cosine [1] [1]) 1 none 0 30

/-! ## Claim C7 — strip-then-extract -/

/-- Check that every suffix beginning with `[` starts a complete
`[ref:...]` citation — the texts on which stripping cannot splice or expose
a fresh citation. -/
def refsClosedB : List Char → Bool
  | [] => true
  | c :: rest => (c != '[' || (matchRef (c :: rest)).isSome) && refsClosedB rest

/-! ## Claim C2 — category-reference following in recall-items -/

/-- The item configuration of the C2 inputs: category-reference following is
enabled. -/
def c2cfg : RetrieveItemConfig :=
  { top_k := 5
    use_category_references := true
    ranking := .similarity
    recency_decay_days := 30 }

/-- The hit category of the C2 inputs: its summary cites only `aaaaaa`. -/
def c2cat : MCategory :=
  { id := "c1"
    name := "preferences"
    description := ""
    summary := some "User drinks tea [ref:aaaaaa]."
    embedding := none
    scope := [] }

/-- An item whose `ref_id` is cited by the category summary. -/
def c2refItem : MItem :=
  { id := "i-aaa"
    resource_id := "r1"
    memory_type := .profile
    summary := "drinks tea"
    embedding := none
    scope := []
    content_hash := none
    reinforcement_count := none
    last_reinforced_at := none
    ref_id := some "aaaaaa" }

/-- An item whose `ref_id` is NOT cited by any category summary. -/
def c2item : MItem :=
  { id := "i-bbb"
    resource_id := "r1"
    memory_type := .profile
    summary := "likes coffee"
    embedding := none
    scope := []
    content_hash := none
    reinforcement_count := none
    last_reinforced_at := none
    ref_id := some "bbbbbb" }

/-- The recall-items state of the C2 inputs: retrieval proceeds, one category
hit was recorded, and its summary is in the lookup. -/
def c2state : RagRecallState :=
  { retrieve_item := true
    needs_retrieval := true
    proceed_to_items := true
    whereF := []
    query_vector := []
    category_hits := [("c1", 1)]
    category_summary_lookup := [("c1", "User drinks tea [ref:aaaaaa].")]
    category_pool := [c2cat] }

/-- C3 counterexample inputs: one category, one persisted item, and an LLM
summary response that cites a short id matching no recorded item. -/
def c3cat : MCategory :=
  { id := "c1"
    name := "prefs"
    description := ""
    summary := none
    embedding := none
    scope := [("user_id", "u1")] }

def c3item : MItem :=
  { id := "item-1"
    resource_id := "res-1"
    memory_type := MemoryType.profile
    summary := "likes tea"
    embedding := none
    scope := [("user_id", "u1")]
    content_hash := none
    reinforcement_count := none
    last_reinforced_at := none
    ref_id := none }

def c3updates : CategoryUpdates := [("c1", [("item-1", "likes tea")])]

def c3responses : String → String := fun _ => "Tea fan [ref:ffffff]"

def c3wcat : MCategory :=
  { id := "c1"
    name := "prefs"
    description := ""
    summary := none
    embedding := none
    scope := [("user_id", "u1")] }

def c3witem : MItem :=
  { id := "aaaaaa-11"
    resource_id := "res-1"
    memory_type := MemoryType.profile
    summary := "drinks tea"
    embedding := none
    scope := [("user_id", "u1")]
    content_hash := none
    reinforcement_count := none
    last_reinforced_at := none
    ref_id := none }

def c3wupdates : CategoryUpdates := [("c1", [("aaaaaa-11", "drinks tea")])]

def c3wresponses : String → String := fun _ => "Tea fan [ref:aaaaaa]"

/-- C6 witness data: a store holding one reinforced-once profile item and an
entry with the same content hash in the same scope. -/
def c6item : MItem :=
  { id := "item-0"
    resource_id := "res-0"
    memory_type := MemoryType.profile
    summary := "likes tea"
    embedding := some []
    scope := [("user_id", "u1")]
    content_hash := some (compute_content_hash "likes tea" MemoryType.profile)
    reinforcement_count := some 1
    last_reinforced_at := some 5
    ref_id := none }

def c6acc : PersistAcc :=
  { items := []
    rels := []
    category_updates := []
    store := [c6item] }

def c6entry : EntryIn :=
  { newId := "id-2"
    memory_type := MemoryType.profile
    summary := "likes tea"
    cat_names := ["prefs"]
    embedding := [] }

/-! ## Theorems -/

theorem matchRef_remainder_length {l ids after : List Char}
    (h : matchRef l = some (ids, after)) : after.length < l.length := by
  unfold matchRef at h
  split at h
  · next htake =>
    split at h
    · next hcond =>
      rcases hcond with ⟨-, hhead⟩
      have hlen5 : 5 ≤ l.length := by
        have h5 := congrArg List.length htake
        rw [List.length_take] at h5
        simp only [List.length_cons, List.length_nil] at h5
        omega
      have hdw : ((l.drop 5).dropWhile isRefChar).length ≤ (l.drop 5).length :=
        (List.dropWhile_sublist _).length_le
      have hdrop : (l.drop 5).length = l.length - 5 := List.length_drop 5 l
      have hne : (l.drop 5).dropWhile isRefChar ≠ [] := by
        intro hnil
        rw [hnil] at hhead
        simp at hhead
      have htl : after = ((l.drop 5).dropWhile isRefChar).tail := by
        simp only [Option.some.injEq, Prod.mk.injEq] at h
        exact h.2.symm
      have : after.length + 1 = ((l.drop 5).dropWhile isRefChar).length := by
        rw [htl]
        cases hdwl : (l.drop 5).dropWhile isRefChar with
        | nil => exact absurd hdwl hne
        | cons a t => simp
      omega
    · exact absurd h (by simp)
  · exact absurd h (by simp)

theorem matchRef_remainder_suffix {l ids after : List Char}
    (h : matchRef l = some (ids, after)) : after <:+ l := by
  unfold matchRef at h
  split at h
  · split at h
    · have htl : after = ((l.drop 5).dropWhile isRefChar).tail := by
        simp only [Option.some.injEq, Prod.mk.injEq] at h
        exact h.2.symm
      rw [htl]
      exact (List.tail_suffix _).trans ((List.dropWhile_suffix _).trans (List.drop_suffix 5 l))
    · exact absurd h (by simp)
  · exact absurd h (by simp)

theorem refScanF_fuel_invariant :
    ∀ (fuel fuel' : Nat) (l : List Char), l.length ≤ fuel → l.length ≤ fuel' →
      refScanF fuel l = refScanF fuel' l := by
  intro fuel
  induction fuel with
  | zero =>
    intro fuel' l hl hl'
    have : l = [] := List.length_eq_zero.mp (Nat.le_zero.mp hl)
    subst this
    cases fuel' <;> rfl
  | succ n ih =>
    intro fuel' l hl hl'
    cases l with
    | nil => cases fuel' <;> rfl
    | cons c rest =>
      cases fuel' with
      | zero => simp at hl'
      | succ m =>
        simp only [List.length_cons] at hl hl'
        cases hm : matchRef (c :: rest) with
        | some p =>
          obtain ⟨ids, after⟩ := p
          have hlen := matchRef_remainder_length hm
          simp only [List.length_cons] at hlen
          simp only [refScanF, hm]
          rw [ih m after (by omega) (by omega)]
        | none =>
          simp only [refScanF, hm]
          rw [ih m rest (by omega) (by omega)]

/-- Unfolding equation for `refScan` on a non-empty text. -/
theorem refScan_cons (c : Char) (rest : List Char) :
    refScan (c :: rest) =
      match matchRef (c :: rest) with
      | some (ids, after) =>
        (ids :: (refScan after).1, (refScan after).2)
      | none =>
        ((refScan rest).1, c :: (refScan rest).2) := by
  show refScanF (rest.length + 1) (c :: rest) = _
  cases hm : matchRef (c :: rest) with
  | some p =>
    obtain ⟨ids, after⟩ := p
    have hlen := matchRef_remainder_length hm
    simp only [List.length_cons] at hlen
    simp only [refScanF, hm, refScan]
    rw [refScanF_fuel_invariant rest.length after.length after (by omega) le_rfl]
  | none =>
    simp only [refScanF, hm, refScan]

theorem MemoryType.str_injective :
    ∀ t₁ t₂ : MemoryType, t₁.str = t₂.str → t₁ = t₂ := by decide

theorem MemoryType.colon_not_mem_str : ∀ t : MemoryType, ':' ∉ t.str.data := by
  decide

/-! ## Content-hash separation

Two reinforce-create calls collide in `_find_by_hash` exactly when their
memory type and normalised summary agree (the memory-type literals contain no
colon, so the canonical string `type ++ ":" ++ normalized` determines both
parts). -/

theorem append_colon_cancel :
    ∀ {a₁ a₂ m₁ m₂ : List Char}, ':' ∉ a₁ → ':' ∉ a₂ →
      a₁ ++ ':' :: m₁ = a₂ ++ ':' :: m₂ → a₁ = a₂ ∧ m₁ = m₂ := by
  intro a₁
  induction a₁ with
  | nil =>
    intro a₂ m₁ m₂ h₁ h₂ h
    cases a₂ with
    | nil => simpa using h
    | cons b t =>
      simp only [List.nil_append, List.cons_append, List.cons.injEq] at h
      exact absurd (h.1 ▸ List.mem_cons_self b t) h₂
  | cons a t ih =>
    intro a₂ m₁ m₂ h₁ h₂ h
    cases a₂ with
    | nil =>
      simp only [List.cons_append, List.nil_append, List.cons.injEq] at h
      exact absurd (h.1 ▸ List.mem_cons_self a t) h₁
    | cons b t' =>
      simp only [List.cons_append, List.cons.injEq] at h
      have ht := ih (fun hm => h₁ (List.mem_cons_of_mem a hm))
        (fun hm => h₂ (h.1 ▸ List.mem_cons_of_mem a hm)) h.2
      exact ⟨by rw [h.1, ht.1], ht.2⟩

theorem compute_content_hash_eq_iff (s₁ s₂ : String) (t₁ t₂ : MemoryType) :
    compute_content_hash s₁ t₁ = compute_content_hash s₂ t₂ ↔
      t₁ = t₂ ∧ normalizeSummary s₁ = normalizeSummary s₂ := by
  constructor
  · intro h
    have hdata := congrArg String.data h
    simp only [compute_content_hash, String.data_append] at hdata
    simp only [List.append_assoc, List.singleton_append] at hdata
    have := append_colon_cancel (MemoryType.colon_not_mem_str t₁)
      (MemoryType.colon_not_mem_str t₂) hdata
    exact ⟨MemoryType.str_injective _ _ (String.ext this.1), String.ext this.2⟩
  · rintro ⟨rfl, hs⟩
    simp only [compute_content_hash, hs]

theorem hashScopeHit_bumpItem (h : String) (w : Scope) (it : MItem) (now : Nat) :
    hashScopeHit h w (bumpItem it now) = hashScopeHit h w it := rfl

theorem bumpOrInsert_of_no_hit {h : String} {w : Scope} {items : List MItem}
    (x : MItem) (now : Nat) (hnone : ∀ it ∈ items, hashScopeHit h w it = false) :
    bumpOrInsert h w x now items = (items ++ [x], x, false) := by
  induction items with
  | nil => rfl
  | cons y rest ih =>
    have hy : hashScopeHit h w y = false := hnone y (List.mem_cons_self y rest)
    simp only [bumpOrInsert, hy, Bool.false_eq_true, if_false,
      ih (fun it hit => hnone it (List.mem_cons_of_mem y hit))]
    simp

theorem keyItems_nil_iff {h : String} {sc : Scope} {items : List MItem} :
    keyItems h sc items = [] ↔ ∀ it ∈ items, hashScopeHit h sc it = false := by
  simp [keyItems, List.filter_eq_nil_iff]

theorem bumpOrInsert_of_unique_hit {h : String} {sc : Scope} {items : List MItem}
    {it : MItem} (x : MItem) (now : Nat) (hone : keyItems h sc items = [it]) :
    (bumpOrInsert h sc x now items).2 = (bumpItem it now, true) ∧
      keyItems h sc (bumpOrInsert h sc x now items).1 = [bumpItem it now] := by
  induction items with
  | nil => simp [keyItems] at hone
  | cons y rest ih =>
    by_cases hy : hashScopeHit h sc y
    · have hfilter : keyItems h sc (y :: rest) = y :: keyItems h sc rest := by
        simp [keyItems, hy]
      rw [hfilter] at hone
      have hyit : y = it := (List.cons.injEq _ _ _ _ ▸ hone).1
      have hrest : keyItems h sc rest = [] := (List.cons.injEq _ _ _ _ ▸ hone).2
      subst hyit
      constructor
      · simp [bumpOrInsert, hy]
      · simp only [bumpOrInsert, hy, if_true]
        have : keyItems h sc (bumpItem y now :: rest) =
            bumpItem y now :: keyItems h sc rest := by
          simp [keyItems, hashScopeHit_bumpItem, hy]
        rw [this, hrest]
    · have hfilter : keyItems h sc (y :: rest) = keyItems h sc rest := by
        simp [keyItems, hy]
      rw [hfilter] at hone
      obtain ⟨ih1, ih2⟩ := ih hone
      constructor
      · simp only [bumpOrInsert, hy, Bool.false_eq_true, if_false]
        exact ih1
      · simp only [bumpOrInsert, hy, Bool.false_eq_true, if_false]
        have : keyItems h sc (y :: (bumpOrInsert h sc x now rest).1) =
            keyItems h sc (bumpOrInsert h sc x now rest).1 := by
          simp [keyItems, hy]
        rw [this]
        exact ih2

theorem hashScopeHit_foreign_exclusive {h h' : String} {sc w' : Scope}
    (hforeign : h' ≠ h ∨ w' ≠ sc) (it : MItem)
    (hy : hashScopeHit h' w' it = true) : hashScopeHit h sc it = false := by
  by_contra hcon
  rw [Bool.not_eq_false] at hcon
  simp only [hashScopeHit, matches_where, Bool.and_eq_true, beq_iff_eq] at hy hcon
  rcases hforeign with hne | hne
  · exact hne (Option.some.inj (hy.1.symm.trans hcon.1))
  · exact hne (hy.2.symm.trans hcon.2)

theorem keyItems_bumpOrInsert_foreign {h h' : String} {sc w' : Scope}
    {x : MItem} (now : Nat) (items : List MItem)
    (hforeign : h' ≠ h ∨ w' ≠ sc)
    (hxh : x.content_hash = some h') (hxs : x.scope = w') :
    keyItems h sc (bumpOrInsert h' w' x now items).1 = keyItems h sc items := by
  have hx : hashScopeHit h sc x = false := by
    apply hashScopeHit_foreign_exclusive hforeign
    simp [hashScopeHit, matches_where, hxh, hxs]
  induction items with
  | nil => simp [bumpOrInsert, keyItems, hx]
  | cons y rest ih =>
    by_cases hy : hashScopeHit h' w' y
    · simp only [bumpOrInsert, hy, if_true]
      have hys : hashScopeHit h sc y = false :=
        hashScopeHit_foreign_exclusive hforeign y hy
      have hysb : hashScopeHit h sc (bumpItem y now) = false := by
        rw [hashScopeHit_bumpItem]; exact hys
      simp [keyItems, hys, hysb]
    · simp only [bumpOrInsert, hy, Bool.false_eq_true, if_false]
      by_cases hys : hashScopeHit h sc y
      · have h1 : keyItems h sc (y :: (bumpOrInsert h' w' x now rest).1) =
            y :: keyItems h sc (bumpOrInsert h' w' x now rest).1 := by
          simp [keyItems, hys]
        have h2 : keyItems h sc (y :: rest) = y :: keyItems h sc rest := by
          simp [keyItems, hys]
        rw [h1, h2, ih]
      · have h1 : keyItems h sc (y :: (bumpOrInsert h' w' x now rest).1) =
            keyItems h sc (bumpOrInsert h' w' x now rest).1 := by
          simp [keyItems, hys]
        have h2 : keyItems h sc (y :: rest) = keyItems h sc rest := by
          simp [keyItems, hys]
        rw [h1, h2, ih]

theorem reinforceStep_key_inv {mt : MemoryType} {su : String} {sc : Scope}
    {c : RCall} (hkey : isKeyCall mt su sc c = true)
    {items : List MItem} {m : Nat} {tl : Option Nat}
    (hinv : ReinforceInv (compute_content_hash su mt) sc m tl items) :
    ReinforceInv (compute_content_hash su mt) sc (m + 1) (some c.now)
      (reinforceStep items c) := by
  simp only [isKeyCall, Bool.and_eq_true, beq_iff_eq] at hkey
  obtain ⟨⟨htype, hnorm⟩, hscope⟩ := hkey
  have hhash : compute_content_hash c.summary c.memory_type =
      compute_content_hash su mt :=
    (compute_content_hash_eq_iff _ _ _ _).mpr ⟨htype, hnorm⟩
  have hstep : reinforceStep items c =
      (bumpOrInsert (compute_content_hash su mt) sc
        (newReinforcedItem c.newId c.resource_id c.memory_type c.summary
          c.embedding c.scope c.now) c.now items).1 := by
    simp [reinforceStep, create_item_reinforce, hhash, hscope]
  set x := newReinforcedItem c.newId c.resource_id c.memory_type c.summary
    c.embedding c.scope c.now with hx
  have hxhit : hashScopeHit (compute_content_hash su mt) sc x = true := by
    simp [hashScopeHit, matches_where, hx, newReinforcedItem, hhash, hscope]
  cases m with
  | zero =>
    simp only [ReinforceInv] at hinv
    have hnone := keyItems_nil_iff.mp hinv
    rw [hstep, bumpOrInsert_of_no_hit x c.now hnone]
    simp only [Nat.zero_add, ReinforceInv]
    refine ⟨x, ?_, by simp [hx, newReinforcedItem], by simp [hx, newReinforcedItem]⟩
    have hsplit : keyItems (compute_content_hash su mt) sc (items ++ [x]) =
        keyItems (compute_content_hash su mt) sc items ++
          keyItems (compute_content_hash su mt) sc [x] := by
      simp [keyItems]
    rw [hsplit, hinv]
    simp [keyItems, hxhit]
  | succ m' =>
    simp only [ReinforceInv] at hinv
    obtain ⟨it, hone, hcount, hlast⟩ := hinv
    obtain ⟨-, hkeys⟩ := bumpOrInsert_of_unique_hit x c.now hone
    rw [hstep]
    simp only [ReinforceInv]
    refine ⟨bumpItem it c.now, hkeys, ?_, rfl⟩
    simp [bumpItem, hcount]

theorem reinforceStep_foreign_inv {mt : MemoryType} {su : String} {sc : Scope}
    {c : RCall} (hkey : isKeyCall mt su sc c = false)
    {items : List MItem} {m : Nat} {tl : Option Nat}
    (hinv : ReinforceInv (compute_content_hash su mt) sc m tl items) :
    ReinforceInv (compute_content_hash su mt) sc m tl (reinforceStep items c) := by
  have hforeign : compute_content_hash c.summary c.memory_type ≠
      compute_content_hash su mt ∨ c.scope ≠ sc := by
    by_contra hcon
    push_neg at hcon
    obtain ⟨hh, hs⟩ := hcon
    rw [compute_content_hash_eq_iff] at hh
    simp [isKeyCall, hh.1, hh.2, hs] at hkey
  have hpres : keyItems (compute_content_hash su mt) sc (reinforceStep items c) =
      keyItems (compute_content_hash su mt) sc items := by
    apply keyItems_bumpOrInsert_foreign c.now items hforeign
    · simp [newReinforcedItem]
    · simp [newReinforcedItem]
  cases m with
  | zero =>
    simp only [ReinforceInv] at hinv ⊢
    rw [hpres, hinv]
  | succ m' =>
    simp only [ReinforceInv] at hinv ⊢
    obtain ⟨it, hone, hcount, hlast⟩ := hinv
    exact ⟨it, hpres ▸ hone, hcount, hlast⟩

theorem applyReinforceCalls_inv (mt : MemoryType) (su : String) (sc : Scope) :
    ∀ (calls : List RCall) (items : List MItem) (m : Nat) (tl : Option Nat),
      ReinforceInv (compute_content_hash su mt) sc m tl items →
      ReinforceInv (compute_content_hash su mt) sc
        (m + (calls.filter (fun c => isKeyCall mt su sc c)).length)
        (lastNowAfter tl (calls.filter (fun c => isKeyCall mt su sc c)))
        (applyReinforceCalls items calls) := by
  intro calls
  induction calls with
  | nil => intro items m tl hinv; simpa [applyReinforceCalls, lastNowAfter]
  | cons c cs ih =>
    intro items m tl hinv
    by_cases hkey : isKeyCall mt su sc c
    · have hstep := reinforceStep_key_inv hkey hinv
      have := ih (reinforceStep items c) (m + 1) (some c.now) hstep
      simp only [applyReinforceCalls, List.filter_cons, hkey, if_true,
        List.length_cons, lastNowAfter, List.foldl_cons]
      have harith : m + ((cs.filter (fun c => isKeyCall mt su sc c)).length + 1) =
          m + 1 + (cs.filter (fun c => isKeyCall mt su sc c)).length := by omega
      rw [harith]
      exact this
    · rw [Bool.not_eq_true] at hkey
      have hstep := reinforceStep_foreign_inv hkey hinv
      have := ih (reinforceStep items c) m tl hstep
      simpa only [applyReinforceCalls, List.filter_cons, hkey, Bool.false_eq_true,
        if_false] using this

theorem getLast?_cons_or {α : Type} (a : α) (l : List α) :
    (a :: l).getLast? = (l.getLast?).or (some a) := by
  cases l with
  | nil => rfl
  | cons b t =>
    rw [List.getLast?_cons_cons]
    cases h : (b :: t).getLast? with
    | none => simp at h
    | some x => simp [Option.or]

theorem lastNowAfter_eq_getLast? :
    ∀ (l : List RCall) (tl : Option Nat),
      lastNowAfter tl l = ((l.map RCall.now).getLast?).or tl := by
  intro l
  induction l with
  | nil => intro tl; rfl
  | cons c cs ih =>
    intro tl
    have h1 : lastNowAfter tl (c :: cs) = lastNowAfter (some c.now) cs := rfl
    rw [h1, ih (some c.now), List.map_cons, getLast?_cons_or]
    cases hcs : (cs.map RCall.now).getLast? with
    | none => rfl
    | some x => rfl

/-! ## Claim C4 — the salience formula -/

/-- C4 counterexample: at similarity 1, `reinforcement_count = 1`,
`last_reinforced_at = 0`, `now = 86400` (one elapsed day) and a one-day
half-life, the code computes `ln 2 · exp(−0.693)` while the claimed formula
gives `ln 2 · exp(−ln 2)`; the two differ because the code's decay constant
is the literal `0.693`, not `ln 2`. -/
theorem C4_salience_decay_constant_counterexample :
    salience_score 1 1 (some 0) 86400 1 ≠
      1 * Real.log ((1 : Nat) + 1) *
        Real.exp (-(Real.log 2) * ((86400 - 0) / 86400) / 1) := by
  intro heq
  have hL : salience_score 1 1 (some 0) 86400 1 =
      Real.log 2 * Real.exp (-(0.693 : ℝ)) := by
    simp only [salience_score]
    norm_num
  have hR : (1 : ℝ) * Real.log ((1 : Nat) + 1) *
      Real.exp (-(Real.log 2) * ((86400 - 0) / 86400) / 1) =
      Real.log 2 * Real.exp (-(Real.log 2)) := by
    norm_num
  rw [hL, hR] at heq
  have hlog : (0 : ℝ) < Real.log 2 := Real.log_pos (by norm_num)
  have hcancel := mul_left_cancel₀ (ne_of_gt hlog) heq
  have hexp := Real.exp_eq_exp.mp hcancel
  have h693 : (0.693 : ℝ) < Real.log 2 := by
    have h := Real.log_two_gt_d9
    norm_num at h ⊢
    linarith
  have : (0.693 : ℝ) = Real.log 2 := by linarith [neg_injective hexp]
  linarith

/-- C4 (amended): the salience score is
`sim · ln(count + 1) · r` where `r = 0.5` when `last_reinforced_at` is
unknown and `r = exp(−0.693 · Δdays / recency_half_life_days)` otherwise,
with `Δdays = (now − last_reinforced_at)/86400` — the code's decay constant
is the literal `0.693`, an approximation of `ln 2`, not `ln 2` itself.  A
candidate with `reinforcement_count = 1` has reinforcement factor exactly
`ln 2`. -/
theorem C4_salience_formula (sim : ℝ) (n : Nat) (t now h : ℝ) :
    salience_score sim n none now h = sim * Real.log (n + 1) * 0.5 ∧
    salience_score sim n (some t) now h =
      sim * Real.log (n + 1) * Real.exp (-(0.693) * ((now - t) / 86400) / h) ∧
    salience_score sim 1 (some t) now h =
      sim * Real.log 2 * Real.exp (-(0.693) * ((now - t) / 86400) / h) := by
  refine ⟨rfl, rfl, ?_⟩
  simp only [salience_score]
  norm_num

/-! ## Claim C5 — no retrieval means empty hit lists -/

/-- C5: a retrieve response carrying `needs_retrieval = false` has empty
category, item and resource hit lists, in both the RAG and the LLM
build-context step. -/
theorem C5_no_retrieval_empty_hits (s : RagBuildState) (needs : Bool)
    (oq : String) (rq nq : Option String) (ch : List MCategory)
    (ih : List MItem) (rh : List MResource)
    (h1 : (rag_build_context s).needs_retrieval = false)
    (h2 : (llm_build_context needs oq rq nq ch ih rh).needs_retrieval = false) :
    ((rag_build_context s).categories = [] ∧
      (rag_build_context s).items = [] ∧
      (rag_build_context s).resources = []) ∧
    ((llm_build_context needs oq rq nq ch ih rh).categories = [] ∧
      (llm_build_context needs oq rq nq ch ih rh).items = [] ∧
      (llm_build_context needs oq rq nq ch ih rh).resources = []) := by
  have hs : s.needs_retrieval = false := h1
  have hn : needs = false := h2
  subst hn
  refine ⟨⟨?_, ?_, ?_⟩, ⟨?_, ?_, ?_⟩⟩ <;>
    simp [rag_build_context, llm_build_context, hs]

/-- C5 witness: a state with non-empty hit lists but `needs_retrieval =
false` produces empty response lists. -/
theorem C5_no_retrieval_empty_hits_witness :
    ((rag_build_context c5state).needs_retrieval = false) ∧
    ((llm_build_context false "q" none none [] [] []).needs_retrieval = false) ∧
    ((rag_build_context c5state).categories = [] ∧
      (rag_build_context c5state).items = [] ∧
      (rag_build_context c5state).resources = []) := by
  refine ⟨rfl, rfl, ?_⟩
  exact (C5_no_retrieval_empty_hits c5state false "q" none none [] [] [] rfl rfl).1

/-! ## Claim C9 — caller errors in retrieve -/

theorem normalize_where_entries_error (vf : List String) :
    ∀ (w : List (String × Option String)) (k v : String),
      (k, some v) ∈ w → (⟨splitKeyBase k.data⟩ : String) ∉ vf →
      ∃ e, normalize_where_entries vf w = .error e := by
  intro w
  induction w with
  | nil => intro k v hmem _; simp at hmem
  | cons p rest ih =>
    intro k v hmem hunk
    obtain ⟨k', v'⟩ := p
    cases v' with
    | none =>
      have : (k, some v) ∈ rest := by
        rcases List.mem_cons.mp hmem with heq | h
        · exact absurd (congrArg Prod.snd heq) (by simp)
        · exact h
      obtain ⟨e, he⟩ := ih k v this hunk
      exact ⟨e, by simpa [normalize_where_entries] using he⟩
    | some v'' =>
      by_cases hvalid : (⟨splitKeyBase k'.data⟩ : String) ∈ vf
      · have hrest : (k, some v) ∈ rest := by
          rcases List.mem_cons.mp hmem with heq | h
          · have hk : k = k' := congrArg Prod.fst heq
            exact absurd (hk ▸ hvalid) hunk
          · exact h
        obtain ⟨e, he⟩ := ih k v hrest hunk
        refine ⟨e, ?_⟩
        simp only [normalize_where_entries, if_pos hvalid, he, Except.map]
      · exact ⟨"Unknown filter field " ++ k',
          by simp [normalize_where_entries, hvalid]⟩

/-- C9 (amended): `retrieve` rejects an empty query list, and rejects any
scope filter that carries a non-`None` value under a field unknown to the
configured user model; in both cases the result is an error that does not
depend on the injected workflow, so no retrieval work is observable.
(`None`-valued entries are skipped before validation — see the
counterexample.) -/
theorem C9_caller_errors {R : Type} (rw rw' : String → List (String × String) → R)
    (vf : List String) (qs : List QueryMsg) (w : List (String × Option String))
    (hbad : ∃ k v, (k, some v) ∈ w ∧ (⟨splitKeyBase k.data⟩ : String) ∉ vf) :
    (retrieve rw vf [] w = .error "empty_queries") ∧
    (∃ e, retrieve rw vf qs w = .error e) ∧
    retrieve rw vf qs w = retrieve rw' vf qs w := by
  obtain ⟨k, v, hmem, hunk⟩ := hbad
  have hw : ¬w.isEmpty := by
    cases w with
    | nil => simp at hmem
    | cons a l => simp
  obtain ⟨e0, he0⟩ := normalize_where_entries_error vf w k v hmem hunk
  have hnw : normalize_where vf w = .error e0 := by
    simp only [normalize_where, if_neg hw, he0]
  refine ⟨rfl, ?_, ?_⟩
  · by_cases hq : qs.isEmpty
    · exact ⟨"empty_queries", by simp [retrieve, hq]⟩
    · simp only [retrieve, if_neg hq]
      cases hlast : qs.getLast? with
      | none => exact ⟨"empty_queries", rfl⟩
      | some q =>
        cases hext : extract_query_text q with
        | error e => exact ⟨e, by simp [hext]⟩
        | ok oq => exact ⟨e0, by simp [hext, hnw]⟩
  · by_cases hq : qs.isEmpty
    · simp [retrieve, hq]
    · simp only [retrieve, if_neg hq]
      cases hlast : qs.getLast? with
      | none => rfl
      | some q =>
        cases hext : extract_query_text q with
        | error e => simp [hext]
        | ok oq => simp [hext, hnw]

/-- C9 witness: an empty query list is rejected, and the unknown field
`agent_id__gte` (non-`None` value) is rejected whatever the workflow. -/
theorem C9_caller_errors_witness :
    (∃ k v, (k, some v) ∈ [("agent_id__gte", some "7")] ∧
      (⟨splitKeyBase "agent_id__gte".data⟩ : String) ∉ ["user_id"]) ∧
    (retrieve (fun _ _ => (0 : Nat)) ["user_id"] [] [("agent_id__gte", some "7")] =
      .error "empty_queries") ∧
    (∃ e, retrieve (fun _ _ => (0 : Nat)) ["user_id"] [QueryMsg.plain "hi"]
      [("agent_id__gte", some "7")] = .error e) := by
  refine ⟨⟨"agent_id__gte", "7", by decide, by decide⟩, ?_, ?_⟩
  · exact (C9_caller_errors (fun _ _ => (0 : Nat)) (fun _ _ => (0 : Nat))
      ["user_id"] [QueryMsg.plain "hi"] [("agent_id__gte", some "7")]
      ⟨"agent_id__gte", "7", by decide, by decide⟩).1
  · exact (C9_caller_errors (fun _ _ => (0 : Nat)) (fun _ _ => (0 : Nat))
      ["user_id"] [QueryMsg.plain "hi"] [("agent_id__gte", some "7")]
      ⟨"agent_id__gte", "7", by decide, by decide⟩).2.1

/-! ## Claim C1 — reinforce-create deduplication -/

/-- C1: for every scope, starting from a store with no row for a given
content, a sequence of reinforce-create calls leaves no row for that content
if no call was made for it, and otherwise exactly one row, whose
`reinforcement_count` equals the number of calls made for that content
(first call inserts with count 1, later calls bump in place) and whose
`last_reinforced_at` is the time of the last such call. -/
theorem C1_reinforce_create_dedup (init : List MItem) (calls : List RCall)
    (mt : MemoryType) (su : String) (sc : Scope)
    (hinit : keyItems (compute_content_hash su mt) sc init = []) :
    ((calls.filter (fun c => isKeyCall mt su sc c)) = [] →
      keyItems (compute_content_hash su mt) sc (applyReinforceCalls init calls) = []) ∧
    ((calls.filter (fun c => isKeyCall mt su sc c)) ≠ [] →
      ∃ it, keyItems (compute_content_hash su mt) sc
          (applyReinforceCalls init calls) = [it] ∧
        it.reinforcement_count =
          some (calls.filter (fun c => isKeyCall mt su sc c)).length ∧
        it.last_reinforced_at =
          ((calls.filter (fun c => isKeyCall mt su sc c)).map RCall.now).getLast?) := by
  have hbase : ReinforceInv (compute_content_hash su mt) sc 0 none init := hinit
  have hfin := applyReinforceCalls_inv mt su sc calls init 0 none hbase
  rw [Nat.zero_add] at hfin
  constructor
  · intro hkcs
    rw [hkcs] at hfin
    simpa [ReinforceInv, lastNowAfter] using hfin
  · intro hkcs
    cases hlen : (calls.filter (fun c => isKeyCall mt su sc c)).length with
    | zero => exact absurd (List.length_eq_zero.mp hlen) hkcs
    | succ n =>
      rw [hlen] at hfin
      simp only [ReinforceInv] at hfin
      obtain ⟨it, hone, hcount, hlast⟩ := hfin
      refine ⟨it, hone, hlen ▸ hcount, ?_⟩
      rw [hlast, lastNowAfter_eq_getLast?]
      cases hgl : ((calls.filter (fun c => isKeyCall mt su sc c)).map RCall.now).getLast? with
      | none => rfl
      | some t => rfl

/-- C1 witness: two reinforce-create calls for the same content in the same
scope leave exactly one row, with `reinforcement_count = 2` and the second
call's timestamp. -/
theorem C1_reinforce_create_dedup_witness :
    (keyItems (compute_content_hash "user loves coffee" .profile)
      [("user_id", "u1")] [] = []) ∧
    ([c1callA, c1callB].filter
      (fun c => isKeyCall .profile "user loves coffee" [("user_id", "u1")] c) ≠ []) ∧
    (∃ it, keyItems (compute_content_hash "user loves coffee" .profile)
        [("user_id", "u1")] (applyReinforceCalls [] [c1callA, c1callB]) = [it] ∧
      it.reinforcement_count = some 2 ∧ it.last_reinforced_at = some 20) := by
  have hfil : [c1callA, c1callB].filter
      (fun c => isKeyCall .profile "user loves coffee" [("user_id", "u1")] c) =
      [c1callA, c1callB] := rfl
  have hne : [c1callA, c1callB].filter
      (fun c => isKeyCall .profile "user loves coffee" [("user_id", "u1")] c) ≠ [] := by
    rw [hfil]; simp
  refine ⟨rfl, hne, ?_⟩
  have h := (C1_reinforce_create_dedup [] [c1callA, c1callB] .profile
    "user loves coffee" [("user_id", "u1")] rfl).2 hne
  rw [hfil] at h
  simpa [c1callA, c1callB] using h

/-! ## Sorting facts for the top-k functions -/

theorem descCmp_trans {α : Type} (key : α → ℝ) (a b c : α)
    (h1 : decide (key b ≤ key a) = true) (h2 : decide (key c ≤ key b) = true) :
    decide (key c ≤ key a) = true := by
  simp only [decide_eq_true_eq] at h1 h2 ⊢
  exact le_trans h2 h1

theorem descCmp_total {α : Type} (key : α → ℝ) (a b : α) :
    (decide (key b ≤ key a) || decide (key a ≤ key b)) = true := by
  simp only [Bool.or_eq_true, decide_eq_true_eq]
  exact le_total (key b) (key a)

theorem ascCmp_trans {α : Type} (key : α → ℝ) (a b c : α)
    (h1 : decide (key a ≤ key b) = true) (h2 : decide (key b ≤ key c) = true) :
    decide (key a ≤ key c) = true := by
  simp only [decide_eq_true_eq] at h1 h2 ⊢
  exact le_trans h1 h2

theorem ascCmp_total {α : Type} (key : α → ℝ) (a b : α) :
    (decide (key a ≤ key b) || decide (key b ≤ key a)) = true := by
  simp only [Bool.or_eq_true, decide_eq_true_eq]
  exact le_total (key a) (key b)

theorem pySortDescBy_perm {α : Type} (key : α → ℝ) (l : List α) :
    (pySortDescBy key l).Perm l := List.mergeSort_perm l _

theorem pySortDescBy_sorted {α : Type} (key : α → ℝ) (l : List α) :
    (pySortDescBy key l).Pairwise (fun a b => key b ≤ key a) := by
  have h := @List.sorted_mergeSort _ (fun a b => decide (key b ≤ key a))
    (fun a b c => descCmp_trans key a b c) (fun a b => descCmp_total key a b) l
  exact h.imp (fun hab => of_decide_eq_true hab)

theorem pySortDescBy_stable {α : Type} (key : α → ℝ) {l : List α} {a b : α}
    (hab : key b ≤ key a) (hsub : [a, b].Sublist l) :
    [a, b].Sublist (pySortDescBy key l) := by
  apply List.sublist_mergeSort (fun x y z => descCmp_trans key x y z)
    (fun x y => descCmp_total key x y)
  · exact List.pairwise_pair.mpr (decide_eq_true hab)
  · exact hsub

theorem argsortAscBy_perm {α : Type} (key : α → ℝ) (l : List α) :
    (argsortAscBy key l).Perm l := List.mergeSort_perm l _

theorem argsortAscBy_sorted {α : Type} (key : α → ℝ) (l : List α) :
    (argsortAscBy key l).Pairwise (fun a b => key a ≤ key b) := by
  have h := @List.sorted_mergeSort _ (fun a b => decide (key a ≤ key b))
    (fun a b c => ascCmp_trans key a b c) (fun a b => ascCmp_total key a b) l
  exact h.imp (fun hab => of_decide_eq_true hab)

theorem argsortAscBy_stable {α : Type} (key : α → ℝ) {l : List α} {a b : α}
    (hab : key a ≤ key b) (hsub : [a, b].Sublist l) :
    [a, b].Sublist (argsortAscBy key l) := by
  apply List.sublist_mergeSort (fun x y z => ascCmp_trans key x y z)
    (fun x y => ascCmp_total key x y)
  · exact List.pairwise_pair.mpr (decide_eq_true hab)
  · exact hsub

theorem validEntries_nil_of_all_none {corpus : List (String × Option (List ℝ))}
    (h : ∀ p ∈ corpus, p.2 = none) : validEntries corpus = [] := by
  induction corpus with
  | nil => rfl
  | cons p rest ih =>
    have hp := h p (List.mem_cons_self p rest)
    simp only [validEntries, List.filterMap_cons, hp, Option.map_none]
    exact ih (fun q hq => h q (List.mem_cons_of_mem p hq))

theorem salienceScored_nil_of_all_none {q : List ℝ} {corpus : List SalienceEntry}
    {now decay : ℝ} (h : ∀ e ∈ corpus, e.embedding = none) :
    salienceScored q corpus now decay = [] := by
  induction corpus with
  | nil => rfl
  | cons e rest ih =>
    have he := h e (List.mem_cons_self e rest)
    simp only [salienceScored, List.filterMap_cons, he, Option.map_none]
    exact ih (fun x hx => h x (List.mem_cons_of_mem e hx))

theorem salienceScored_map_fst (q : List ℝ) (corpus : List SalienceEntry)
    (now decay : ℝ) :
    (salienceScored q corpus now decay).map Prod.fst =
      (corpus.filter (fun e => e.embedding.isSome)).map SalienceEntry.id := by
  induction corpus with
  | nil => rfl
  | cons e rest ih =>
    cases he : e.embedding with
    | none =>
      simp only [salienceScored, List.filterMap_cons, he, Option.map_none,
        List.filter_cons, Option.isSome_none, Bool.false_eq_true, if_false]
      exact ih
    | some v =>
      simp only [salienceScored, List.filterMap_cons, he, Option.map_some',
        List.filter_cons, Option.isSome_some, if_true, List.map_cons]
      exact congrArg _ ih

theorem cosineScored_map_fst (q : List ℝ) (corpus : List (String × Option (List ℝ))) :
    (cosineScored q corpus).map Prod.fst = (validEntries corpus).map Prod.fst := by
  simp only [cosineScored, List.map_map]
  rfl

theorem cosine_topk_mem {q : List ℝ} {corpus : List (String × Option (List ℝ))}
    {k : Nat} {hit : String × ℝ} (hmem : hit ∈ cosine_topk q corpus k) :
    hit ∈ cosineScored q corpus := by
  by_cases he : (validEntries corpus).isEmpty
  · simp [cosine_topk, he] at hmem
  · simp only [cosine_topk, he, Bool.false_eq_true, if_false] at hmem
    have h2 := (List.take_sublist k _).subset hmem
    have h3 := List.mem_reverse.mp h2
    exact ((List.mergeSort_perm (cosineScored q corpus) _).mem_iff).mp h3

theorem cosine_topk_salience_mem {q : List ℝ} {corpus : List SalienceEntry}
    {k : Nat} {now decay : ℝ} {hit : String × ℝ}
    (hmem : hit ∈ cosine_topk_salience q corpus k now decay) :
    hit ∈ salienceScored q corpus now decay := by
  have h2 := (List.take_sublist k _).subset hmem
  exact ((List.mergeSort_perm _ _).mem_iff).mp h2

/-! ## Claim C10 — None embeddings are skipped -/

/-- C10: both top-k functions silently skip the `None`-embedding entries:
every returned hit's id belongs to a non-`None` entry (for every `k`); with
`k` at least the corpus size, exactly the non-`None` entries come back (a
permutation of them), sorted by descending score; an all-`None` corpus
yields `[]`. -/
theorem C10_none_embeddings_skipped (q : List ℝ)
    (corpus : List (String × Option (List ℝ))) (scorpus : List SalienceEntry)
    (k : Nat) (now decay : ℝ)
    (hk : corpus.length ≤ k) (hk2 : scorpus.length ≤ k) :
    (∀ k2 : Nat, ∀ hit ∈ cosine_topk q corpus k2,
        hit.1 ∈ (validEntries corpus).map Prod.fst) ∧
    ((cosine_topk q corpus k).map Prod.fst).Perm
      ((validEntries corpus).map Prod.fst) ∧
    ((cosine_topk q corpus k).Pairwise (fun a b => b.2 ≤ a.2)) ∧
    ((∀ p ∈ corpus, p.2 = none) → cosine_topk q corpus k = []) ∧
    (∀ k2 : Nat, ∀ hit ∈ cosine_topk_salience q scorpus k2 now decay,
        ∃ e ∈ scorpus, e.id = hit.1 ∧ e.embedding.isSome = true) ∧
    ((cosine_topk_salience q scorpus k now decay).map Prod.fst).Perm
      ((scorpus.filter (fun e => e.embedding.isSome)).map SalienceEntry.id) ∧
    ((cosine_topk_salience q scorpus k now decay).Pairwise
      (fun a b => b.2 ≤ a.2)) ∧
    ((∀ e ∈ scorpus, e.embedding = none) →
      cosine_topk_salience q scorpus k now decay = []) := by
  have hvlen : (validEntries corpus).length ≤ corpus.length :=
    List.length_filterMap_le _ _
  have hsallen : (salienceScored q scorpus now decay).length ≤ scorpus.length :=
    List.length_filterMap_le _ _
  refine ⟨?_, ?_, ?_, ?_, ?_, ?_, ?_, ?_⟩
  · intro k2 hit hmem
    have h4 := cosine_topk_mem hmem
    rw [← cosineScored_map_fst q corpus]
    exact List.mem_map_of_mem Prod.fst h4
  · by_cases he : (validEntries corpus).isEmpty
    · have hv := List.isEmpty_iff.mp he
      simp [cosine_topk, he, hv]
    · simp only [cosine_topk, he, Bool.false_eq_true, if_false]
      have hlen : ((argsortAscBy Prod.snd (cosineScored q corpus)).reverse).length ≤ k := by
        rw [List.length_reverse, (argsortAscBy_perm _ _).length_eq]
        simp only [cosineScored, List.length_map]
        omega
      rw [List.take_of_length_le hlen]
      have hperm : ((argsortAscBy Prod.snd (cosineScored q corpus)).reverse).Perm
          (cosineScored q corpus) :=
        (List.reverse_perm _).trans (argsortAscBy_perm _ _)
      have hmap := hperm.map Prod.fst
      rwa [cosineScored_map_fst q corpus] at hmap
  · by_cases he : (validEntries corpus).isEmpty
    · rw [show cosine_topk q corpus k = [] from by simp [cosine_topk, he]]
      exact List.Pairwise.nil
    · simp only [cosine_topk, he, Bool.false_eq_true, if_false]
      have hasc := argsortAscBy_sorted (α := String × ℝ) Prod.snd (cosineScored q corpus)
      have hdesc : ((argsortAscBy Prod.snd (cosineScored q corpus)).reverse).Pairwise
          (fun a b : String × ℝ => b.2 ≤ a.2) :=
        List.pairwise_reverse.mpr hasc
      exact List.Pairwise.sublist (List.take_sublist _ _) hdesc
  · intro hnone
    simp [cosine_topk, validEntries_nil_of_all_none hnone]
  · intro k2 hit hmem
    have h4 := cosine_topk_salience_mem hmem
    simp only [salienceScored, List.mem_filterMap] at h4
    obtain ⟨e, hei, heq⟩ := h4
    cases hemb : e.embedding with
    | none => rw [hemb] at heq; simp at heq
    | some v =>
      rw [hemb] at heq
      simp only [Option.map_some', Option.some.injEq] at heq
      exact ⟨e, hei, by rw [← heq], by simp [hemb]⟩
  · simp only [cosine_topk_salience]
    have hlen : (pySortDescBy Prod.snd (salienceScored q scorpus now decay)).length ≤ k := by
      rw [(pySortDescBy_perm _ _).length_eq]
      omega
    rw [List.take_of_length_le hlen]
    have hmap := (pySortDescBy_perm Prod.snd (salienceScored q scorpus now decay)).map Prod.fst
    rwa [salienceScored_map_fst q scorpus now decay] at hmap
  · simp only [cosine_topk_salience]
    exact List.Pairwise.sublist (List.take_sublist _ _)
      (pySortDescBy_sorted Prod.snd _)
  · intro hnone
    simp [cosine_topk_salience, salienceScored_nil_of_all_none hnone, pySortDescBy]

/-- C10 witness: at `k = 3`, a one-entry all-`None` cosine corpus and a
one-entry all-`None` salience corpus both return `[]`. -/
theorem C10_none_embeddings_skipped_witness :
    ([(("a" : String), (none : Option (List ℝ)))].length ≤ 3) ∧
    ([c10entry].length ≤ 3) ∧
    cosine_topk [1] [("a", none)] 3 = [] ∧
    cosine_topk_salience [1] [c10entry] 3 0 30 = [] := by
  have h := C10_none_embeddings_skipped [1] [("a", none)]
    [c10entry] 3 0 30 (by simp) (by simp)
  refine ⟨by simp, by simp, ?_, ?_⟩
  · exact h.2.2.2.1 (by intro p hp; rw [List.mem_singleton] at hp; rw [hp])
  · exact h.2.2.2.2.2.2.2 (by intro e he; rw [List.mem_singleton] at he; rw [he]; rfl)

/-! ## Claim C8 — tie order of equal scores -/

/-- C8 counterexample: two corpus entries with the same embedding (hence the
same score) come back from `cosine_topk` with the later insertion first —
the reversed ascending argsort puts equal scores in reverse insertion order,
so the entry with the smaller insertion id does not precede the other. -/
theorem C8_cosine_tie_reversed_counterexample :
    cosine_topk [1] [("a", some [1]), ("b", some [1])] 5 =
      [("b", cosine [1] [1]), ("a", cosine [1] [1])] := by
  have hscored : cosineScored [1] [("a", some [1]), ("b", some [1])] =
      [("a", cosine [1] [1]), ("b", cosine [1] [1])] := rfl
  have hpair : [("a", cosine [1] [1]), ("b", cosine [1] [1])].Sublist
      (argsortAscBy Prod.snd
        (cosineScored [1] [("a", some [1]), ("b", some [1])])) := by
    rw [hscored]
    exact argsortAscBy_stable Prod.snd (le_refl _) (List.Sublist.refl _)
  have hlen : (argsortAscBy Prod.snd
      (cosineScored [1] [("a", some [1]), ("b", some [1])])).length = 2 := by
    rw [(argsortAscBy_perm _ _).length_eq, hscored]
    rfl
  have heq : argsortAscBy Prod.snd
      (cosineScored [1] [("a", some [1]), ("b", some [1])]) =
      [("a", cosine [1] [1]), ("b", cosine [1] [1])] :=
    (List.Sublist.eq_of_length hpair (by rw [hlen]; rfl)).symm
  have hne : (validEntries [("a", some [1]), ("b", some [1])]).isEmpty = false := rfl
  simp only [cosine_topk, hne, Bool.false_eq_true, if_false, heq]
  rfl

/-- C8 (amended): with `k` at least the corpus size, equal-score candidates
keep their insertion order in salience top-k (Python's stable descending
sort), while cosine top-k returns them in reverse insertion order (the
reversed stable ascending argsort). -/
theorem C8_equal_score_tie_order (q : List ℝ)
    (corpus : List (String × Option (List ℝ))) (scorpus : List SalienceEntry)
    (k : Nat) (now decay : ℝ) (a b : String × ℝ)
    (hk : corpus.length ≤ k) (hk2 : scorpus.length ≤ k) (hab : a.2 = b.2) :
    ([a, b].Sublist (cosineScored q corpus) →
      [b, a].Sublist (cosine_topk q corpus k)) ∧
    ([a, b].Sublist (salienceScored q scorpus now decay) →
      [a, b].Sublist (cosine_topk_salience q scorpus k now decay)) := by
  constructor
  · intro hsub
    have hne : (validEntries corpus).isEmpty = false := by
      cases hval : validEntries corpus with
      | nil =>
        rw [show cosineScored q corpus = [] from by
          simp [cosineScored, hval]] at hsub
        simp at hsub
      | cons x xs => rfl
    have hstable := argsortAscBy_stable Prod.snd (le_of_eq hab) hsub
    have hrev : [b, a].Sublist
        ((argsortAscBy Prod.snd (cosineScored q corpus)).reverse) := by
      have hr := hstable.reverse
      simpa using hr
    have hlen : ((argsortAscBy Prod.snd (cosineScored q corpus)).reverse).length ≤ k := by
      rw [List.length_reverse, (argsortAscBy_perm _ _).length_eq]
      have hv := List.length_filterMap_le
        (fun p : String × Option (List ℝ) => p.2.map (fun v => (p.1, v))) corpus
      simp only [cosineScored, List.length_map]
      simp only [validEntries] at hv ⊢
      omega
    simp only [cosine_topk, hne, Bool.false_eq_true, if_false]
    rwa [List.take_of_length_le hlen]
  · intro hsub
    have hstable := pySortDescBy_stable Prod.snd (le_of_eq hab.symm) hsub
    have hlen : (pySortDescBy Prod.snd (salienceScored q scorpus now decay)).length ≤ k := by
      rw [(pySortDescBy_perm _ _).length_eq]
      have hv := List.length_filterMap_le
        (fun e : SalienceEntry => e.embedding.map (fun v =>
          (e.id, salience_score (cosine q v) e.reinforcement_count
            e.last_reinforced_at now decay))) scorpus
      simp only [salienceScored] at *
      omega
    simp only [cosine_topk_salience]
    rwa [List.take_of_length_le hlen]

/-- C8 witness: on equal scores, salience top-k keeps insertion order and
cosine top-k reverses it. -/
theorem C8_equal_score_tie_order_witness :
    (c8corpus.length ≤ 5) ∧ ([c8sal1, c8sal2].length ≤ 5) ∧
    ((("a", c8score) : String × ℝ).2 = (("b", c8score) : String × ℝ).2) ∧
    ([(("a", c8score) : String × ℝ), ("b", c8score)].Sublist
      (cosineScored [1] c8corpus)) ∧
    ([(("x", c8salScore) : String × ℝ), ("y", c8salScore)].Sublist
      (salienceScored [1] [c8sal1, c8sal2] 0 30)) ∧
    ([(("b", c8score) : String × ℝ), ("a", c8score)].Sublist
      (cosine_topk [1] c8corpus 5)) ∧
    ([(("x", c8salScore) : String × ℝ), ("y", c8salScore)].Sublist
      (cosine_topk_salience [1] [c8sal1, c8sal2] 5 0 30)) := by
  have hsc : cosineScored [1] c8corpus =
      [(("a", c8score) : String × ℝ), ("b", c8score)] := rfl
  have hss : salienceScored [1] [c8sal1, c8sal2] 0 30 =
      [(("x", c8salScore) : String × ℝ), ("y", c8salScore)] := rfl
  have hsub1 : [(("a", c8score) : String × ℝ), ("b", c8score)].Sublist
      (cosineScored [1] c8corpus) := hsc ▸ List.Sublist.refl _
  have hsub2 : [(("x", c8salScore) : String × ℝ), ("y", c8salScore)].Sublist
      (salienceScored [1] [c8sal1, c8sal2] 0 30) := hss ▸ List.Sublist.refl _
  refine ⟨by simp [c8corpus], by simp, rfl, hsub1, hsub2, ?_, ?_⟩
  · exact (C8_equal_score_tie_order [1] c8corpus [c8sal1, c8sal2] 5 0 30
      ("a", c8score) ("b", c8score) (by simp [c8corpus]) (by simp) rfl).1 hsub1
  · exact (C8_equal_score_tie_order [1] c8corpus [c8sal1, c8sal2] 5 0 30
      ("x", c8salScore) ("y", c8salScore) (by simp [c8corpus]) (by simp) rfl).2 hsub2

theorem matchRef_none_of_head {c : Char} (rest : List Char) (hc : c ≠ '[') :
    matchRef (c :: rest) = none := by
  unfold matchRef
  rw [if_neg]
  intro h
  rw [List.take_succ_cons] at h
  injection h with h1 h2
  exact hc h1

theorem refsClosedB_suffix : ∀ {l s : List Char}, refsClosedB l = true →
    s <:+ l → refsClosedB s = true := by
  intro l
  induction l with
  | nil =>
    intro s h hs
    rw [List.suffix_nil.mp hs]
    rfl
  | cons c rest ih =>
    intro s h hs
    rcases List.suffix_cons_iff.mp hs with heq | hsuf
    · rw [heq]; exact h
    · have hrest : refsClosedB rest = true := by
        have h2 := h
        simp only [refsClosedB, Bool.and_eq_true] at h2
        exact h2.2
      exact ih hrest hsuf

theorem refScan_strip_no_lbracket :
    ∀ (n : Nat) (l : List Char), l.length ≤ n → refsClosedB l = true →
      '[' ∉ (refScan l).2 := by
  intro n
  induction n with
  | zero =>
    intro l hl _
    rw [List.length_eq_zero.mp (Nat.le_zero.mp hl)]
    simp [refScan, refScanF]
  | succ n ih =>
    intro l hl hcl
    cases l with
    | nil => simp [refScan, refScanF]
    | cons c rest =>
      cases hm : matchRef (c :: rest) with
      | some p =>
        obtain ⟨ids, after⟩ := p
        simp only [refScan_cons, hm]
        have hlen := matchRef_remainder_length hm
        simp only [List.length_cons] at hl hlen
        exact ih after (by omega)
          (refsClosedB_suffix hcl (matchRef_remainder_suffix hm))
      | none =>
        simp only [refScan_cons, hm]
        have hc : c ≠ '[' := by
          intro hcc
          have hb : refsClosedB (c :: rest) = true := hcl
          simp only [refsClosedB, Bool.and_eq_true, Bool.or_eq_true] at hb
          rcases hb.1 with hb1 | hb2
          · rw [hcc] at hb1; simp at hb1
          · rw [hm] at hb2; simp at hb2
        intro hmem
        simp only [List.length_cons] at hl
        rcases List.mem_cons.mp hmem with heq | hmem2
        · exact hc heq.symm
        · refine ih rest (by omega) ?_ hmem2
          simp only [refsClosedB, Bool.and_eq_true] at hcl
          exact hcl.2

theorem cleanupAcc_mem :
    ∀ (l pend : List Char) (x : Char), x ∈ cleanupAcc l pend → x ∈ l ∨ x ∈ pend := by
  intro l
  induction l with
  | nil =>
    intro pend x hx
    right
    simpa [cleanupAcc] using hx
  | cons c rest ih =>
    intro pend x hx
    simp only [cleanupAcc] at hx
    by_cases hsp : isPySpace c
    · rw [if_pos hsp] at hx
      rcases ih (c :: pend) x hx with h | h
      · exact Or.inl (List.mem_cons_of_mem c h)
      · rcases List.mem_cons.mp h with heq | hp
        · exact Or.inl (by rw [heq]; exact List.mem_cons_self c rest)
        · exact Or.inr hp
    · rw [if_neg hsp] at hx
      by_cases hpu : isCleanupPunct c ∧ pend ≠ []
      · rw [if_pos hpu] at hx
        rcases List.mem_cons.mp hx with heq | hm
        · exact Or.inl (by rw [heq]; exact List.mem_cons_self c rest)
        · rcases ih [] x hm with h | h
          · exact Or.inl (List.mem_cons_of_mem c h)
          · simp at h
      · rw [if_neg hpu] at hx
        rcases List.mem_append.mp hx with h | h
        · exact Or.inr (List.mem_reverse.mp h)
        · rcases List.mem_cons.mp h with heq | hm
          · exact Or.inl (by rw [heq]; exact List.mem_cons_self c rest)
          · rcases ih [] x hm with h2 | h2
            · exact Or.inl (List.mem_cons_of_mem c h2)
            · simp at h2

theorem splitWordsAcc_chars :
    ∀ (l acc w : List Char), w ∈ splitWordsAcc l acc → ∀ x ∈ w, x ∈ l ∨ x ∈ acc := by
  intro l
  induction l with
  | nil =>
    intro acc w hw x hx
    simp only [splitWordsAcc] at hw
    by_cases hacc : acc.isEmpty
    · rw [if_pos hacc] at hw; simp at hw
    · rw [if_neg hacc] at hw
      rw [List.mem_singleton] at hw
      right
      rw [hw] at hx
      exact List.mem_reverse.mp hx
  | cons c rest ih =>
    intro acc w hw x hx
    simp only [splitWordsAcc] at hw
    by_cases hsp : isPySpace c
    · rw [if_pos hsp] at hw
      by_cases hacc : acc.isEmpty
      · rw [if_pos hacc] at hw
        rcases ih [] w hw x hx with h | h
        · exact Or.inl (List.mem_cons_of_mem c h)
        · simp at h
      · rw [if_neg hacc] at hw
        rcases List.mem_cons.mp hw with heq | hm
        · right; rw [heq] at hx; exact List.mem_reverse.mp hx
        · rcases ih [] w hm x hx with h | h
          · exact Or.inl (List.mem_cons_of_mem c h)
          · simp at h
    · rw [if_neg hsp] at hw
      rcases ih (c :: acc) w hw x hx with h | h
      · exact Or.inl (List.mem_cons_of_mem c h)
      · rcases List.mem_cons.mp h with heq | hp
        · exact Or.inl (by rw [heq]; exact List.mem_cons_self c rest)
        · exact Or.inr hp

theorem joinSpace_mem :
    ∀ (ws : List (List Char)) (x : Char), x ∈ joinSpace ws →
      (∃ w ∈ ws, x ∈ w) ∨ x = ' ' := by
  intro ws
  induction ws with
  | nil => intro x hx; simp [joinSpace] at hx
  | cons w rest ih =>
    intro x hx
    cases rest with
    | nil =>
      left
      exact ⟨w, List.mem_cons_self w [], by simpa [joinSpace] using hx⟩
    | cons r rs =>
      rw [show joinSpace (w :: r :: rs) = w ++ ' ' :: joinSpace (r :: rs) from rfl] at hx
      rcases List.mem_append.mp hx with h | h
      · exact Or.inl ⟨w, List.mem_cons_self w _, h⟩
      · rcases List.mem_cons.mp h with heq | hm
        · exact Or.inr heq
        · rcases ih x hm with ⟨w2, hw2, hxw2⟩ | hsp
          · exact Or.inl ⟨w2, List.mem_cons_of_mem w hw2, hxw2⟩
          · exact Or.inr hsp

theorem collapseWs_mem {l : List Char} {x : Char} (hx : x ∈ collapseWs l) :
    x ∈ l ∨ x = ' ' := by
  rcases joinSpace_mem (splitWords l) x hx with ⟨w, hw, hxw⟩ | hsp
  · rcases splitWordsAcc_chars l [] w hw x hxw with h | h
    · exact Or.inl h
    · simp at h
  · exact Or.inr hsp

theorem refScan_matches_nil :
    ∀ (n : Nat) (l : List Char), l.length ≤ n → '[' ∉ l → (refScan l).1 = [] := by
  intro n
  induction n with
  | zero =>
    intro l hl _
    rw [List.length_eq_zero.mp (Nat.le_zero.mp hl)]
    rfl
  | succ n ih =>
    intro l hl hnl
    cases l with
    | nil => rfl
    | cons c rest =>
      have hc : c ≠ '[' := fun h => hnl (by rw [h] at *; exact List.mem_cons_self '[' rest)
      have hm := matchRef_none_of_head rest hc
      simp only [refScan_cons, hm]
      simp only [List.length_cons] at hl
      exact ih rest (by omega) (fun h => hnl (List.mem_cons_of_mem c h))

theorem extract_references_nil_of_no_lbracket {l : List Char} (h : '[' ∉ l) :
    extract_references l = [] := by
  unfold extract_references
  rw [refScan_matches_nil l.length l le_rfl h]
  rfl

/-- C7 (amended): when every `[` in the text begins a complete citation,
stripping removes every citation and re-extraction finds none.  (In general
the law fails: deleting a match can splice a new citation together, and the
whitespace clean-up can close up `[ref :id]` into a parseable citation — see
the counterexample.) -/
theorem C7_strip_then_extract (t : List Char) (hclosed : refsClosedB t = true) :
    extract_references (strip_references t) = [] := by
  have h2 : '[' ∉ (refScan t).2 :=
    refScan_strip_no_lbracket t.length t le_rfl hclosed
  have h3 : '[' ∉ cleanupPunct (refScan t).2 := by
    intro hmem
    rcases cleanupAcc_mem _ [] _ hmem with h | h
    · exact h2 h
    · simp at h
  have h4 : '[' ∉ collapseWs (cleanupPunct (refScan t).2) := by
    intro hmem
    rcases collapseWs_mem hmem with h | h
    · exact h3 h
    · exact absurd h (by decide)
  exact extract_references_nil_of_no_lbracket h4

/-- C7 counterexample: stripping `[ref:[ref:abc]x]` deletes the inner match
and splices the remainder into the fresh citation `[ref:x]`, so re-extraction
returns `["x"]`, not `[]`. -/
theorem C7_strip_creates_citation_counterexample :
    extract_references (strip_references "[ref:[ref:abc]x]".toList) ≠ [] := by decide

/-- C7 witness: an ordinary citation-bearing text is closed, and stripping
then extracting yields the empty list. -/
theorem C7_strip_then_extract_witness :
    refsClosedB "See [ref:abc123], also [ref:d,e].".toList = true ∧
    extract_references
      (strip_references "See [ref:abc123], also [ref:d,e].".toList) = [] :=
  ⟨by decide, C7_strip_then_extract _ (by decide)⟩

/-- C2 counterexample: with category-reference following enabled and a
recorded category hit whose summary cites only `aaaaaa`, the RAG recall step
still hands ranking the full scope-filtered pool — it contains the item with
`ref_id = bbbbbb`, which no top category summary cites.  (The step never
reads `use_category_references`; the helper `_extract_referenced_item_ids`
is dead code.) -/
theorem C2_rag_pool_unrestricted_counterexample :
    c2cfg.use_category_references = true ∧
    (rag_recall_items c2cfg [c2item] c2state 0).2 = some [c2item] ∧
    c2item.ref_id = some "bbbbbb" ∧
    extract_references "User drinks tea [ref:aaaaaa].".toList =
      ["aaaaaa".toList] := by
  refine ⟨rfl, rfl, rfl, by decide⟩

/-- C2 (amended): only the LLM recall step restricts the candidate pool, and
only when reference extraction from the hit category summaries produced at
least one id — every pooled item then carries a truthy `ref_id` among the
extracted ids.  The RAG recall step always hands ranking the full
scope-filtered pool, whatever the reference configuration. -/
theorem C2_reference_following_llm_only (use_refs : Bool) (items : List MItem)
    (category_hits : List MCategory) (w : Scope)
    (cfg : RetrieveItemConfig) (s : RagRecallState) (now : ℝ)
    (hrefs : llm_category_ref_ids use_refs category_hits ≠ [])
    (hflags : s.retrieve_item = true ∧ s.needs_retrieval = true ∧
      s.proceed_to_items = true) :
    (∀ it ∈ llm_recall_items_pool use_refs items category_hits w,
      ∃ r, it.ref_id = some r ∧ r ≠ "" ∧
        r ∈ llm_category_ref_ids use_refs category_hits) ∧
    (rag_recall_items cfg items s now).2 = some (list_items items s.whereF) := by
  constructor
  · intro it hit
    have hne : (llm_category_ref_ids use_refs category_hits).isEmpty = false := by
      cases h : llm_category_ref_ids use_refs category_hits with
      | nil => exact absurd h hrefs
      | cons a l => rfl
    simp only [llm_recall_items_pool, hne, Bool.not_false, if_true] at hit
    simp only [list_items_by_ref_ids, hne, Bool.false_eq_true, if_false] at hit
    obtain ⟨-, hpred⟩ := List.mem_filter.mp hit
    rw [Bool.and_eq_true] at hpred
    obtain ⟨-, href⟩ := hpred
    cases hrid : it.ref_id with
    | none => rw [hrid] at href; simp at href
    | some r =>
      rw [hrid] at href
      simp only [Bool.and_eq_true, Bool.not_eq_true', decide_eq_true_eq] at href
      refine ⟨r, rfl, ?_, href.2⟩
      intro hempty
      rw [hempty] at href
      exact absurd href.1 (by decide)
  · obtain ⟨h1, h2, h3⟩ := hflags
    simp only [rag_recall_items, h1, h2, h3, Bool.not_true, Bool.or_self,
      Bool.false_eq_true, if_false]

/-- C2 witness: with reference following enabled and the `aaaaaa`-citing
category hit, the LLM pool keeps only the cited item while the RAG pool
keeps both. -/
theorem C2_reference_following_llm_only_witness :
    (llm_category_ref_ids true [c2cat] ≠ []) ∧
    (c2state.retrieve_item = true ∧ c2state.needs_retrieval = true ∧
      c2state.proceed_to_items = true) ∧
    (∀ it ∈ llm_recall_items_pool true [c2refItem, c2item] [c2cat] [],
      ∃ r, it.ref_id = some r ∧ r ≠ "" ∧
        r ∈ llm_category_ref_ids true [c2cat]) ∧
    (rag_recall_items c2cfg [c2refItem, c2item] c2state 0).2 =
      some (list_items [c2refItem, c2item] c2state.whereF) := by
  have h := C2_reference_following_llm_only true [c2refItem, c2item] [c2cat] []
    c2cfg c2state 0 (by decide) ⟨rfl, rfl, rfl⟩
  exact ⟨by decide, ⟨rfl, rfl, rfl⟩, h.1, h.2⟩

/-- C9 counterexample: a scope filter containing the unknown field `bogus`
with a `None` value is accepted — `_normalize_where` skips `None` values
before validating the field, so no error reaches the caller. -/
theorem C9_none_value_not_rejected_counterexample :
    retrieve (fun _ _ => ()) ["user_id"] [QueryMsg.plain "hi"]
        [("bogus", (none : Option String))] = .ok () ∧
      ("bogus" : String) ∉ ["user_id"] := by
  exact ⟨rfl, by decide⟩

/-! ## Claim C3 — reference annotation after summary persist -/

/-- A fold preserves any predicate its step preserves. -/
theorem foldl_preserves {α β : Type} (P : β → Prop) (f : β → α → β) :
    ∀ (l : List α), (∀ b a, a ∈ l → P b → P (f b a)) →
      ∀ init, P init → P (l.foldl f init) := by
  intro l
  induction l with
  | nil => intro _ init h; exact h
  | cons a t ih =>
    intro hstep init h
    exact ih (fun b x hx hb => hstep b x (List.mem_cons_of_mem a hx) hb)
      (f init a) (hstep init a (List.mem_cons_self a t) h)

/-- A successful lookup names a pair of the association list. -/
theorem lookup_mem {β : Type} {m : List (String × β)} {k : String} {v : β}
    (h : m.lookup k = some v) : (k, v) ∈ m := by
  induction m with
  | nil => cases h
  | cons q t ih =>
    obtain ⟨k1, v1⟩ := q
    by_cases hk : (k == k1) = true
    · simp only [List.lookup, hk] at h
      injection h with h
      exact (eq_of_beq hk) ▸ h ▸ List.mem_cons_self _ _
    · simp only [List.lookup, hk] at h
      exact List.mem_cons_of_mem _ (ih h)

/-- Lookup skips a prefix in which the key is absent. -/
theorem lookup_append_right {β : Type} {m : List (String × β)} {k : String}
    (h : m.lookup k = none) (l : List (String × β)) :
    (m ++ l).lookup k = l.lookup k := by
  induction m with
  | nil => rfl
  | cons q t ih =>
    obtain ⟨k1, v1⟩ := q
    by_cases hk : (k == k1) = true
    · simp only [List.lookup, hk] at h
      exact Option.noConfusion h
    · simp only [List.cons_append, List.lookup, hk] at h ⊢
      exact ih h

/-- Lookup ignores a suffix when the key is already bound. -/
theorem lookup_append_left {β : Type} {m : List (String × β)} {k : String}
    (h : (m.lookup k).isSome = true) (l : List (String × β)) :
    (m ++ l).lookup k = m.lookup k := by
  induction m with
  | nil => simp [List.lookup] at h
  | cons q t ih =>
    obtain ⟨k1, v1⟩ := q
    by_cases hk : (k == k1) = true
    · simp [List.lookup, hk]
    · simp only [List.cons_append, List.lookup, hk] at h ⊢
      exact ih h

/-- A map that preserves keys preserves whether a lookup succeeds. -/
theorem lookup_isSome_map_keys {β : Type} (f : String × β → String × β)
    (hf : ∀ q, (f q).1 = q.1) :
    ∀ (m : List (String × β)) (k : String),
      ((m.map f).lookup k).isSome = (m.lookup k).isSome := by
  intro m
  induction m with
  | nil => intro _; rfl
  | cons q t ih =>
    intro k
    obtain ⟨k1, v1⟩ := q
    have hk1 : (f (k1, v1)).1 = k1 := hf (k1, v1)
    rcases hfq : f (k1, v1) with ⟨k2, v2⟩
    rw [hfq] at hk1
    simp only at hk1
    subst hk1
    by_cases h : (k == k2) = true
    · simp [List.lookup, h, hfq]
    · simp only [List.map_cons, hfq, List.lookup, h]
      exact ih k

/-- `update_item` never changes the list of item ids. -/
theorem update_item_ref_ids (st : List MItem) (i s : String) :
    (update_item_ref st i s).map MItem.id = st.map MItem.id := by
  unfold update_item_ref
  rw [List.map_map]
  apply List.map_congr_left
  intro a _
  by_cases hid : a.id = i
  · simp [Function.comp, hid]
  · simp [Function.comp, hid]

/-- `update_item` writes `ref_id = s` on the item whose id it is given. -/
theorem update_item_ref_sets {st : List MItem} {i : String} (s : String)
    (h : i ∈ st.map MItem.id) :
    ∃ it ∈ update_item_ref st i s, it.id = i ∧ it.ref_id = some s := by
  obtain ⟨it0, hit0, hid⟩ := List.mem_map.mp h
  refine ⟨{ it0 with ref_id := some s }, List.mem_map.mpr ⟨it0, hit0, ?_⟩, hid, rfl⟩
  show (if it0.id = i then { it0 with ref_id := some s } else it0) = _
  rw [if_pos hid]

/-- `update_item` for one id leaves every other item untouched. -/
theorem update_item_ref_other {st : List MItem} {i s : String} {iid sref : String}
    (hP : ∃ it ∈ st, it.id = iid ∧ it.ref_id = some sref) (hne : i ≠ iid) :
    ∃ it ∈ update_item_ref st i s, it.id = iid ∧ it.ref_id = some sref := by
  obtain ⟨it0, hit0, hid, href⟩ := hP
  refine ⟨it0, List.mem_map.mpr ⟨it0, hit0, ?_⟩, hid, href⟩
  show (if it0.id = i then { it0 with ref_id := some s } else it0) = it0
  rw [if_neg]
  rw [hid]
  exact fun h => hne h.symm

/-- Every pair a dict assignment leaves in the table either is the fresh
binding or was already present. -/
theorem sid_put_mem {m : List (String × String)} {iid : String} :
    ∀ q ∈ sid_put m iid,
      (build_item_ref_id q.2 = q.1 ∧ q.2 = iid) ∨ q ∈ m := by
  intro q hq
  unfold sid_put at hq
  by_cases hc : ((m.lookup (build_item_ref_id iid)).isSome : Bool) = true
  · rw [if_pos hc] at hq
    obtain ⟨q0, hq0, hfq⟩ := List.mem_map.mp hq
    by_cases hk : (q0.1 == build_item_ref_id iid) = true
    · rw [if_pos hk] at hfq
      exact Or.inl ⟨by rw [← hfq], by rw [← hfq]⟩
    · rw [if_neg hk] at hfq
      exact Or.inr (hfq ▸ hq0)
  · rw [if_neg hc] at hq
    rcases List.mem_append.mp hq with h | h
    · exact Or.inr h
    · rcases List.mem_singleton.mp h with h
      exact Or.inl ⟨by rw [h], by rw [h]⟩

/-- A dict assignment never deletes a key. -/
theorem sid_put_lookup_isSome {m : List (String × String)} {k : String}
    (iid : String) (h : (m.lookup k).isSome = true) :
    ((sid_put m iid).lookup k).isSome = true := by
  unfold sid_put
  by_cases hc : ((m.lookup (build_item_ref_id iid)).isSome : Bool) = true
  · rw [if_pos hc, lookup_isSome_map_keys _ ?_ m k]
    · exact h
    · intro q
      by_cases hk : (q.1 == build_item_ref_id iid) = true
      · rw [if_pos hk]
        exact (eq_of_beq hk).symm
      · rw [if_neg hk]
  · rw [if_neg hc, lookup_append_left h]
    exact h

/-- A dict assignment binds its own key. -/
theorem sid_put_lookup_self (m : List (String × String)) (iid : String) :
    ((sid_put m iid).lookup (build_item_ref_id iid)).isSome = true := by
  unfold sid_put
  by_cases hc : ((m.lookup (build_item_ref_id iid)).isSome : Bool) = true
  · rw [if_pos hc, lookup_isSome_map_keys _ ?_ m]
    · exact hc
    · intro q
      by_cases hk : (q.1 == build_item_ref_id iid) = true
      · rw [if_pos hk]
        exact (eq_of_beq hk).symm
      · rw [if_neg hk]
  · rw [if_neg hc]
    rw [lookup_append_right (Option.not_isSome_iff_eq_none.mp hc)]
    simp [List.lookup]

/-- Folding dict assignments over a list of pairs never deletes a key. -/
theorem sid_put_foldl_isSome {k : String} :
    ∀ (l : List (String × String)) (m : List (String × String)),
      (m.lookup k).isSome = true →
      ((l.foldl (fun m' p => sid_put m' p.1) m).lookup k).isSome = true := by
  intro l
  induction l with
  | nil => intro m h; exact h
  | cons p t ih => intro m h; exact ih _ (sid_put_lookup_isSome p.1 h)

/-- Every binding of the short-id table maps the short id of a recorded item
id to that item id. -/
theorem short_id_table_spec (updates : CategoryUpdates) :
    ∀ q ∈ short_id_table updates,
      build_item_ref_id q.2 = q.1 ∧ ∃ u ∈ updates, ∃ p ∈ u.2, p.1 = q.2 := by
  unfold short_id_table
  refine foldl_preserves
    (fun m => ∀ q ∈ m,
      build_item_ref_id q.2 = q.1 ∧ ∃ u ∈ updates, ∃ p ∈ u.2, p.1 = q.2)
    (fun m u => u.2.foldl (fun m' p => sid_put m' p.1) m)
    updates ?_ [] ?_
  · intro b u hu hb
    refine foldl_preserves
      (fun m => ∀ q ∈ m,
        build_item_ref_id q.2 = q.1 ∧ ∃ u ∈ updates, ∃ p ∈ u.2, p.1 = q.2)
      (fun m' p => sid_put m' p.1) u.2 ?_ b hb
    intro b' p hp hb' q hq
    rcases sid_put_mem q hq with ⟨h1, h2⟩ | hmem
    · exact ⟨h1, u, hu, p, hp, h2.symm⟩
    · exact hb' q hmem
  · intro q hq
    cases hq

/-- The short-id table binds the short id of every recorded item id. -/
theorem short_id_table_complete {updates : CategoryUpdates}
    {u0 : String × List (String × String)} {p0 : String × String}
    (hu : u0 ∈ updates) (hp : p0 ∈ u0.2) :
    ((short_id_table updates).lookup (build_item_ref_id p0.1)).isSome = true := by
  obtain ⟨l1, l2, hl⟩ := List.append_of_mem hu
  unfold short_id_table
  rw [hl, List.foldl_append, List.foldl_cons]
  refine foldl_preserves
    (fun m => ((m.lookup (build_item_ref_id p0.1)).isSome : Bool) = true)
    (fun m u => u.2.foldl (fun m' p => sid_put m' p.1) m) l2 ?_ _ ?_
  · intro b u _ hb
    exact sid_put_foldl_isSome u.2 b hb
  · obtain ⟨s1, s2, hs⟩ := List.append_of_mem hp
    rw [hs, List.foldl_append, List.foldl_cons]
    apply sid_put_foldl_isSome
    exact sid_put_lookup_self _ p0.1

/-- The annotation fold of `_persist_item_references` never changes the list
of item ids. -/
theorem persist_refs_fold_ids (table : List (String × String)) :
    ∀ (l : List String) (st : List MItem),
      ((l.foldl (fun st s =>
        match table.lookup s with
        | some iid => update_item_ref st iid s
        | none => st) st).map MItem.id) = st.map MItem.id := by
  intro l
  induction l with
  | nil => intro st; rfl
  | cons r t ih =>
    intro st
    rw [List.foldl_cons]
    cases hl : table.lookup r with
    | none => simp only [hl]; exact ih st
    | some j =>
      simp only [hl]
      rw [ih (update_item_ref st j r), update_item_ref_ids]

/-- Once the annotation fold has written `ref_id = s` on the item bound to
`s` in the table, the remaining steps keep that annotation. -/
theorem persist_refs_fold_keep {table : List (String × String)} {iid s : String}
    (htab : ∀ q ∈ table, build_item_ref_id q.2 = q.1)
    (hq : (s, iid) ∈ table) :
    ∀ (l : List String) (st : List MItem),
      iid ∈ st.map MItem.id →
      (∃ it ∈ st, it.id = iid ∧ it.ref_id = some s) →
      ∃ it ∈ (l.foldl (fun st r =>
          match table.lookup r with
          | some j => update_item_ref st j r
          | none => st) st), it.id = iid ∧ it.ref_id = some s := by
  intro l
  induction l with
  | nil => intro st _ h; exact h
  | cons r t ih =>
    intro st hids hP
    rw [List.foldl_cons]
    cases hl : table.lookup r with
    | none => simp only [hl]; exact ih st hids hP
    | some j =>
      simp only [hl]
      by_cases hj : j = iid
      · subst hj
        have hr : build_item_ref_id j = r := htab _ (lookup_mem hl)
        have hs2 : build_item_ref_id j = s := htab (s, j) hq
        have hrs : r = s := by rw [← hr, hs2]
        refine ih (update_item_ref st j r) ?_ ?_
        · rw [update_item_ref_ids]; exact hids
        · rcases update_item_ref_sets r hids with ⟨it, hit, hid, href⟩
          exact ⟨it, hit, hid, by rw [href, hrs]⟩
      · refine ih (update_item_ref st j r) ?_ ?_
        · rw [update_item_ref_ids]; exact hids
        · exact update_item_ref_other hP hj

/-- C3: after the summary-persist steps of a memorize run, every referenced
short id `s` that is the short id of an item recorded in the category
updates — with all recorded item ids present in the store, as the pipeline
guarantees for the items it has just persisted — is written onto the
matching item: some stored item carries `extra.ref_id = s`.  (The
unconditional claim fails: `C3_unmatched_ref_counterexample`.) -/
theorem C3_matched_refs_annotated
    {updates : CategoryUpdates} {cats : List MCategory}
    {responses : String → String} {store : List MItem} {s : String}
    (hs : s ∈ extract_refs_from_summaries
      (((update_category_summaries updates cats responses).1).map (fun u => u.2)))
    (hrec : ∃ u ∈ updates, ∃ p ∈ u.2, build_item_ref_id p.1 = s)
    (hids : ∀ u ∈ updates, ∀ p ∈ u.2, p.1 ∈ store.map MItem.id) :
    ∃ it ∈ (summarize_then_annotate updates cats responses store).2,
      it.ref_id = some s := by
  obtain ⟨u, hu, p, hp, hsid⟩ := hrec
  show ∃ it ∈ persist_item_references
      (update_category_summaries updates cats responses).1 updates store,
    it.ref_id = some s
  unfold persist_item_references
  have hne : ¬ ((extract_refs_from_summaries
      (((update_category_summaries updates cats responses).1).map
        (fun u => u.2))).isEmpty = true) := by
    rw [List.isEmpty_iff]
    exact List.ne_nil_of_mem hs
  rw [if_neg hne]
  have hcomplete := short_id_table_complete hu hp
  rw [hsid] at hcomplete
  cases hl : (short_id_table updates).lookup s with
  | none => rw [hl] at hcomplete; cases hcomplete
  | some iid =>
    have htab : ∀ q ∈ short_id_table updates, build_item_ref_id q.2 = q.1 :=
      fun q hq => (short_id_table_spec updates q hq).1
    have hrec2 := (short_id_table_spec updates (s, iid) (lookup_mem hl)).2
    obtain ⟨u2, hu2, p2, hp2, hpid⟩ := hrec2
    have hiid : iid ∈ store.map MItem.id := by
      have h := hids u2 hu2 p2 hp2
      rw [hpid] at h
      exact h
    obtain ⟨r1, r2, hr⟩ := List.append_of_mem hs
    rw [hr, List.foldl_append, List.foldl_cons]
    have hids1 : iid ∈ (r1.foldl (fun st s =>
        match (short_id_table updates).lookup s with
        | some iid => update_item_ref st iid s
        | none => st) store).map MItem.id := by
      rw [persist_refs_fold_ids]
      exact hiid
    simp only [hl]
    rcases persist_refs_fold_keep htab (lookup_mem hl) r2 _
        (by rw [update_item_ref_ids]; exact hids1)
        (update_item_ref_sets s hids1) with ⟨it, hit, _, href⟩
    exact ⟨it, hit, href⟩

/-- C3 counterexample: the LLM summary cites `[ref:ffffff]`, no recorded item
has that short id, so `_persist_item_references` silently skips it — the
stored category summary contains a `[ref:s]` token for which no item in the
store carries `extra.ref_id = s`, against the claimed invariant. -/
theorem C3_unmatched_ref_counterexample :
    ∃ s ∈ extract_refs_from_summaries
        (((summarize_then_annotate c3updates [c3cat] c3responses [c3item]).1).filterMap
          MCategory.summary),
      ∀ it ∈ (summarize_then_annotate c3updates [c3cat] c3responses [c3item]).2,
        it.ref_id ≠ some s := by
  refine ⟨"ffffff", by decide, by decide⟩

/-- Witness for C3: a summary citing `[ref:aaaaaa]` where item `aaaaaa-11`
(short id `aaaaaa`) was recorded and stored; after the run some stored item
carries `ref_id = some "aaaaaa"`. -/
theorem C3_matched_refs_annotated_witness :
    (("aaaaaa" : String) ∈ extract_refs_from_summaries
      (((update_category_summaries c3wupdates [c3wcat] c3wresponses).1).map
        (fun u => u.2))) ∧
    (∃ u ∈ c3wupdates, ∃ p ∈ u.2, build_item_ref_id p.1 = "aaaaaa") ∧
    (∀ u ∈ c3wupdates, ∀ p ∈ u.2, p.1 ∈ [c3witem].map MItem.id) ∧
    ∃ it ∈ (summarize_then_annotate c3wupdates [c3wcat] c3wresponses [c3witem]).2,
      it.ref_id = some "aaaaaa" :=
  ⟨by decide, by decide, by decide,
    C3_matched_refs_annotated (by decide) (by decide) (by decide)⟩

/-! ## Claim C6 — reinforcement skips category linking -/

/-- When `create_item_reinforce` reports a reinforcement, the item it returns
is a bumped copy of an item already in the store. -/
theorem bumpOrInsert_reinforced {h : String} {w : Scope} {newItem : MItem}
    {now : Nat} :
    ∀ {items : List MItem}, (bumpOrInsert h w newItem now items).2.2 = true →
      ∃ it ∈ items, (bumpOrInsert h w newItem now items).2.1 = bumpItem it now := by
  intro items
  induction items with
  | nil =>
    intro h0
    simp [bumpOrInsert] at h0
  | cons it rest ih =>
    intro hflag
    by_cases hh : hashScopeHit h w it = true
    · exact ⟨it, List.mem_cons_self _ _, by simp [bumpOrInsert, hh]⟩
    · simp only [bumpOrInsert, if_neg hh] at hflag ⊢
      obtain ⟨it0, hmem, heq⟩ := ih hflag
      exact ⟨it0, List.mem_cons_of_mem _ hmem, heq⟩

/-- C6: in a store whose reinforcement counts are well-formed (every stored
count is at least 1, as the repository itself writes them), whenever the
reinforce-create call for an entry reports an existing item, `_persist_memory_items`
skips category linking for that entry entirely: the created relations and the
recorded category updates are exactly those of the accumulator before the
entry — reinforcement never mutates category relations. -/
theorem C6_reinforce_skips_linking
    (name_to_id : List (String × String)) (resource_id : String)
    (user : Scope) (now : Nat) (acc : PersistAcc) (e : EntryIn)
    (hwf : ∀ it ∈ acc.store, 1 ≤ it.reinforcement_count.getD 1)
    (hre : (create_item acc.store true e.newId resource_id e.memory_type
      e.summary e.embedding user now).2.2 = true) :
    (persist_entry true name_to_id resource_id user now acc e).rels = acc.rels ∧
    (persist_entry true name_to_id resource_id user now acc e).category_updates
      = acc.category_updates := by
  have hflag : (bumpOrInsert (compute_content_hash e.summary e.memory_type) user
      (newReinforcedItem e.newId resource_id e.memory_type e.summary e.embedding
        user now) now acc.store).2.2 = true := hre
  obtain ⟨it0, hit0, hitem⟩ := bumpOrInsert_reinforced hflag
  have hcount : 1 < ((create_item acc.store true e.newId resource_id
      e.memory_type e.summary e.embedding user now).2.1).reinforcement_count.getD 1 := by
    have heq : (create_item acc.store true e.newId resource_id e.memory_type
        e.summary e.embedding user now).2.1 = bumpItem it0 now := hitem
    rw [heq]
    show 1 < (some (it0.reinforcement_count.getD 1 + 1)).getD 1
    rw [Option.getD_some]
    exact Nat.lt_succ_of_le (hwf it0 hit0)
  constructor <;> simp [persist_entry, hcount]

/-- Witness for C6: re-memorizing `"likes tea"` over a store already holding
it reports a reinforcement and leaves both the relation list and the category
update map untouched, even though the entry declares a mappable category. -/
theorem C6_reinforce_skips_linking_witness :
    (∀ it ∈ c6acc.store, 1 ≤ it.reinforcement_count.getD 1) ∧
    ((create_item c6acc.store true c6entry.newId "res-1" c6entry.memory_type
      c6entry.summary c6entry.embedding [("user_id", "u1")] 7).2.2 = true) ∧
    ((persist_entry true [("prefs", "cat-1")] "res-1" [("user_id", "u1")] 7
        c6acc c6entry).rels = c6acc.rels ∧
      (persist_entry true [("prefs", "cat-1")] "res-1" [("user_id", "u1")] 7
        c6acc c6entry).category_updates = c6acc.category_updates) :=
  ⟨by decide, by decide,
    C6_reinforce_skips_linking [("prefs", "cat-1")] "res-1" [("user_id", "u1")]
      7 c6acc c6entry (by decide) (by decide)⟩

end MemU
